import Mathlib

/-!
Shallow embedding of `timeline.rs` (Timeline / ThreadSafeTimeline).

A `Timeline<A>` in the source is a pair of shared cells
`last : Rc<RefCell<A>>` and `fns : Rc<RefCell<Vec<Box<dyn Fn(A)>>>>`.
Clones of a `Timeline` alias the same two cells, so we model the program
state as a heap: a list of records, one per logical timeline instance,
indexed by allocation order.  A Rust handle is then just a `Nat` index
into the heap.

Subscribers stored in `fns` are exactly the closures pushed by
`Timeline::map` and `Timeline::bind` (plus, for the error-handling
claims, an arbitrary closure that panics when invoked), so we embed them
as a small syntactic datatype `Sub`:
  * `Sub.map f b`    — the closure pushed by `map` (source lines 120-122):
                       `move |a| timeline_b_clone.next(f(a.clone()))`.
  * `Sub.bind mf b`  — the closure pushed by `bind` (source lines 106-109):
                       `move |a| { let inner = monadf(a.clone());
                                   timeline_b_clone.next(inner.last()); }`
                       (when the closure returns, `inner` is dropped and the
                       `Drop` impl runs `inner.unlink()`).
  * `Sub.fail`       — a subscriber whose body panics; `next` wraps every
                       invocation in `catch_unwind`, logs and continues.

A chain function `monadf : A -> Timeline<B>` either constructs a fresh
timeline and returns it, or returns a clone of an existing handle; we
embed its observable result as `TLRet` (fresh value, or clone of id).

Publish cascades can recurse forever (a callback publishing back into
its own source), which in Rust is divergence / stack overflow; we give
`next` fuel and return `none` when it is exhausted, so `next ... = some h`
means the Rust call terminates with final state `h`.
-/

set_option linter.unusedVariables false
set_option linter.unusedSectionVars false

namespace TimelineModel

/-- Observable behaviour of a chain function `monadf : A -> Timeline<B>`:
it either builds and returns a brand-new timeline holding `v`, or returns
a clone of the existing handle `id`. -/
inductive TLRet (α : Type) where
  | fresh (v : α)
  | clone (id : Nat)

/-- A registered subscriber closure (an entry of the `fns` vector). -/
inductive Sub (α : Type) where
  | map (f : α → α) (target : Nat)
  | bind (monadf : α → TLRet α) (target : Nat)
  | fail

/-- The shared state of one `Timeline` instance: the two `Rc<RefCell<..>>`
cells `last` and `fns`. -/
structure TL (α : Type) where
  last : α
  fns : List (Sub α)

/-- The program state: every timeline instance allocated so far. -/
abbrev Heap (α : Type) := List (TL α)

variable {α : Type} [Inhabited α]

/-- Read the state of instance `i` (out-of-range reads a dummy; they never
occur for states reachable by the API). -/
def getTL (h : Heap α) (i : Nat) : TL α := (h[i]?).getD ⟨default, []⟩

/-- `self.last.borrow().clone()`. -/
def getLast (h : Heap α) (i : Nat) : α := (getTL h i).last

/-- `self.fns.borrow().clone()` (the subscriber vector of instance `i`). -/
def getFns (h : Heap α) (i : Nat) : List (Sub α) := (getTL h i).fns

/-- `*self.last.borrow_mut() = v`. -/
def setLast (h : Heap α) (i : Nat) (v : α) : Heap α :=
  h.set i ⟨v, getFns h i⟩

/-- Overwrite the subscriber vector of instance `i`. -/
def setFns (h : Heap α) (i : Nat) (fs : List (Sub α)) : Heap α :=
  h.set i ⟨getLast h i, fs⟩

/-- `Timeline::new(v)`: allocate a fresh shared state with value `v` and an
empty subscriber vector; returns the heap and the new handle. -/
def alloc (h : Heap α) (v : α) : Heap α × Nat :=
  (h ++ [⟨v, []⟩], h.length)

namespace Timeline

/-- `Timeline::new` (source lines 73-78). -/
def new (h : Heap α) (v : α) : Heap α × Nat := alloc h v

/-- `Timeline::last` (source lines 80-82). -/
def lastVal (h : Heap α) (i : Nat) : α := getLast h i

/-- `Timeline::unlink` (source lines 128-130): `self.fns.borrow_mut().clear()`. -/
def unlink (h : Heap α) (i : Nat) : Heap α := setFns h i []

/-- `impl Drop for Timeline` (source lines 134-138): dropping a handle runs
`self.unlink()` — on every handle drop, not only the last one. -/
def dropHandle (h : Heap α) (i : Nat) : Heap α := unlink h i

/-- One subscriber invocation, wrapped in `catch_unwind` (source lines 91-97).
`nextF` is the `next` entry point available to the closure body, and
`borrowed` is the set of timelines whose `fns` cell is currently borrowed by
a `next` loop further up the call stack (the `Ref` produced by
`self.fns.borrow()` at source line 88 lives for the whole loop).  When the
bind closure returns, its inner timeline is dropped and `Drop` runs
`unlink`; if that timeline is in `borrowed`, `fns.borrow_mut()` panics with
a `BorrowMutError`, the panic is caught by this invocation's `catch_unwind`
and the subscriber list is left intact (the forwarding `next` has already
completed by then).  A timeline freshly constructed by the chain function is
never borrowed, so its drop-unlink always succeeds, on its empty list. -/
def invoke (nextF : List Nat → Heap α → Nat → α → Option (Heap α))
    (borrowed : List Nat) (h : Heap α) (s : Sub α) (v : α) : Option (Heap α) :=
  match s with
  | .map f b => nextF borrowed h b (f v)
  | .bind monadf b =>
      match monadf v with
      | .fresh w =>
          let hj := alloc h w
          (nextF borrowed hj.1 b w).map (fun h2 => unlink h2 hj.2)
      | .clone j =>
          (nextF borrowed h b (getLast h j)).map
            (fun h2 => if j ∈ borrowed then h2 else unlink h2 j)
  | .fail => some h

/-- The callback loop of `Timeline::next` (source lines 88-98): for each
subscriber of instance `i`, re-read `self.last`, invoke the subscriber with
that value under `catch_unwind`, continue with the rest.  `borrowed` already
contains `i` (this loop holds the `Ref` on `i`'s `fns` cell). -/
def runCallbacks (nextF : List Nat → Heap α → Nat → α → Option (Heap α))
    (borrowed : List Nat) (h : Heap α) (i : Nat) : List (Sub α) → Option (Heap α)
  | [] => some h
  | s :: rest =>
      match invoke nextF borrowed h s (getLast h i) with
      | some h' => runCallbacks nextF borrowed h' i rest
      | none => none

/-- `Timeline::next` (source lines 84-99) as seen from inside a cascade:
store the value, then run the snapshot of the subscriber list with `i`'s
`fns` cell borrowed for the duration of the loop.  `none` models a
non-terminating cascade. -/
def nextAux : Nat → List Nat → Heap α → Nat → α → Option (Heap α)
  | 0, _, _, _, _ => none
  | fuel+1, borrowed, h, i, v =>
      let h1 := setLast h i v
      runCallbacks (nextAux fuel) (i :: borrowed) h1 i (getFns h1 i)

/-- `Timeline::next` entered from outside any callback: no `fns` cell is
borrowed yet. -/
def next (fuel : Nat) : Heap α → Nat → α → Option (Heap α) := nextAux fuel []

/-- `Timeline::bind` (source lines 101-113): evaluate `monadf(self.last())`,
the result itself is the returned timeline; push the bind closure. -/
def bind (h : Heap α) (i : Nat) (monadf : α → TLRet α) : Heap α × Nat :=
  let hb := match monadf (getLast h i) with
            | .fresh w => alloc h w
            | .clone j => (h, j)
  (setFns hb.1 i (getFns hb.1 i ++ [.bind monadf hb.2]), hb.2)

/-- `Timeline::map` (source lines 115-126): allocate `Timeline::new(f(last))`,
push the map closure, return the new handle. -/
def map (h : Heap α) (i : Nat) (f : α → α) : Heap α × Nat :=
  let hb := alloc h (f (getLast h i))
  (setFns hb.1 i (getFns hb.1 i ++ [.map f hb.2]), hb.2)

/-- A whole sequence of `next` calls on the same timeline. -/
def publishSeq (fuel : Nat) (h : Heap α) (i : Nat) : List α → Option (Heap α)
  | [] => some h
  | v :: vs =>
      match next fuel h i v with
      | some h' => publishSeq fuel h' i vs
      | none => none

end Timeline

/-! ## ThreadSafeTimeline (source lines 143-231)

Same protocol built on `Arc<RwLock<A>>` / `Arc<Mutex<Vec<..>>>`.  Each of
the two locks carries a poison flag (set when a holder panicked).  The
source has no `bind` for this variant, so the subscriber closures are the
ones pushed by `ThreadSafeTimeline::map`, plus a panicking one.

`std::sync::Mutex` is not re-entrant: locking a mutex already held by the
current thread blocks forever.  We therefore thread through `tsNext` the
list of subscriber-mutexes currently held by the executing thread and
return `TSRes.deadlock` when `fns.lock()` is called on one of them.  The
value `RwLock` write guard is released before the callback loop begins
(end of the `match` at source lines 165-171), so it needs no tracking. -/

/-- A subscriber of a `ThreadSafeTimeline` (pushed by `map`, or panicking). -/
inductive TSSub (α : Type) where
  | map (f : α → α) (target : Nat)
  | fail

/-- Shared state of one `ThreadSafeTimeline`: the value cell with its
`RwLock` poison flag and the subscriber vector with its `Mutex` poison flag. -/
structure TSTL (α : Type) where
  last : α
  lastPoisoned : Bool
  fns : List (TSSub α)
  fnsPoisoned : Bool

abbrev TSHeap (α : Type) := List (TSTL α)

/-- Outcome of a `ThreadSafeTimeline::next` call: normal return with the new
state, a same-thread re-lock of a held `Mutex` (blocks forever), or an
unbounded cascade (out of fuel). -/
inductive TSRes (α : Type) where
  | ok (h : TSHeap α)
  | deadlock
  | fuelOut

def tsGet (h : TSHeap α) (i : Nat) : TSTL α :=
  (h[i]?).getD ⟨default, false, [], false⟩

def tsGetLast (h : TSHeap α) (i : Nat) : α := (tsGet h i).last
def tsGetFns (h : TSHeap α) (i : Nat) : List (TSSub α) := (tsGet h i).fns

def tsSetLast (h : TSHeap α) (i : Nat) (v : α) : TSHeap α :=
  h.set i { tsGet h i with last := v }

def tsSetFns (h : TSHeap α) (i : Nat) (fs : List (TSSub α)) : TSHeap α :=
  h.set i { tsGet h i with fns := fs }

/-- `ThreadSafeTimeline::new` (source lines 149-154). -/
def tsAlloc (h : TSHeap α) (v : α) : TSHeap α × Nat :=
  (h ++ [⟨v, false, [], false⟩], h.length)

namespace ThreadSafeTimeline

/-- `ThreadSafeTimeline::last` (source lines 156-161): a poisoned read lock
panics (`none`); otherwise the value is cloned out. -/
def lastVal (h : TSHeap α) (i : Nat) : Option α :=
  if (tsGet h i).lastPoisoned then none else some (tsGetLast h i)

/-- The callback loop of `ThreadSafeTimeline::next` (source lines 182-192):
`current_value` is read once before the loop and every subscriber receives
the same value; each invocation is wrapped in `catch_unwind`. -/
def runCallbacks (nextF : TSHeap α → Nat → α → TSRes α)
    (h : TSHeap α) (cur : α) : List (TSSub α) → TSRes α
  | [] => .ok h
  | .fail :: rest => runCallbacks nextF h cur rest
  | .map f b :: rest =>
      match nextF h b (f cur) with
      | .ok h' => runCallbacks nextF h' cur rest
      | r => r

/-- `ThreadSafeTimeline::next` (source lines 163-193).  `held` is the set of
subscriber mutexes the current thread already holds: the `MutexGuard`
`callbacks` is live for the whole loop, so a re-entrant `next` on the same
timeline re-locks it and blocks. -/
def next : Nat → List Nat → TSHeap α → Nat → α → TSRes α
  | 0, _, _, _, _ => .fuelOut
  | fuel+1, held, h, i, v =>
      if (tsGet h i).lastPoisoned then .ok h
      else
        let h1 := tsSetLast h i v
        if i ∈ held then .deadlock
        else if (tsGet h1 i).fnsPoisoned then .ok h1
        else runCallbacks (next fuel (i :: held)) h1 (tsGetLast h1 i) (tsGetFns h1 i)

/-- `ThreadSafeTimeline::map` (source lines 195-209): `self.last()` panics on
a poisoned read lock (`none`); the push is silently skipped when the
subscriber mutex is poisoned (`if let Ok`). -/
def map (h : TSHeap α) (i : Nat) (f : α → α) : Option (TSHeap α × Nat) :=
  if (tsGet h i).lastPoisoned then none
  else
    let hb := tsAlloc h (f (tsGetLast h i))
    if (tsGet h i).fnsPoisoned then some hb
    else some (tsSetFns hb.1 i (tsGetFns hb.1 i ++ [.map f hb.2]), hb.2)

/-- `ThreadSafeTimeline::unlink` (source lines 211-216): clears the vector,
silently doing nothing when the mutex is poisoned (`if let Ok`). -/
def unlink (h : TSHeap α) (i : Nat) : TSHeap α :=
  if (tsGet h i).fnsPoisoned then h else tsSetFns h i []

/-- `impl Drop for ThreadSafeTimeline` (source lines 227-231): every handle
drop runs `self.unlink()`. -/
def dropHandle (h : TSHeap α) (i : Nat) : TSHeap α := unlink h i

end ThreadSafeTimeline

/-! ## Interference predicates and claim-specific constants -/

/-- The timeline a subscriber publishes into when invoked. -/
def Sub.writesTo : Sub α → Option Nat
  | .map _ b => some b
  | .bind _ b => some b
  | .fail => none

/-- `true` for subscribers registered by `bind`. -/
def Sub.isBind : Sub α → Bool
  | .bind _ _ => true
  | _ => false

/-- No subscriber anywhere in the heap publishes into timeline `t`
(the "no other publishers interfering" reading of the spec). -/
def NoWrite (h : Heap α) (t : Nat) : Prop :=
  ∀ i < h.length, ∀ s ∈ getFns h i, s.writesTo ≠ some t

/-- No subscriber outside timeline `e`'s own list publishes into `p`. -/
def AvoidsExc (h : Heap α) (p e : Nat) : Prop :=
  ∀ i < h.length, i ≠ e → ∀ s ∈ getFns h i, s.writesTo ≠ some p

/-- The subscriber never evaluates its chain function to a clone of `t`
(so it can never drop-unlink `t`). -/
def Sub.noCloneOf (t : Nat) : Sub α → Prop
  | .bind mf _ => ∀ x, mf x ≠ .clone t
  | _ => True

/-- No subscriber in the heap can drop-unlink timeline `t`. -/
def NoClone (h : Heap α) (t : Nat) : Prop :=
  ∀ i < h.length, ∀ s ∈ getFns h i, s.noCloneOf t

/-- Every subscriber in the heap publishes into an allocated timeline. -/
def WF (h : Heap α) : Prop :=
  ∀ i < h.length, ∀ s ∈ getFns h i, ∀ j, s.writesTo = some j → j < h.length

/-- A chain-function result denotes an allocated timeline. -/
def RetValid (r : TLRet α) (n : Nat) : Prop :=
  match r with
  | .fresh _ => True
  | .clone j => j < n

/-- `f(v).current()` evaluated in heap `h`: the current value of the timeline
instance a chain-function result denotes. -/
def retValAt (h : Heap α) : TLRet α → α
  | .fresh w => w
  | .clone j => getLast h j

/-- The timeline a thread-safe subscriber publishes into. -/
def TSSub.writesTo : TSSub α → Option Nat
  | .map _ b => some b
  | .fail => none

/-- No thread-safe subscriber anywhere publishes into timeline `t`. -/
def NoWriteTS (h : TSHeap α) (t : Nat) : Prop :=
  ∀ i < h.length, ∀ s ∈ tsGetFns h i, s.writesTo ≠ some t

/-- No thread-safe subscriber outside `e`'s own list publishes into `p`. -/
def AvoidsExcTS (h : TSHeap α) (p e : Nat) : Prop :=
  ∀ i < h.length, i ≠ e → ∀ s ∈ tsGetFns h i, s.writesTo ≠ some p

/-- Every thread-safe subscriber publishes into an allocated timeline. -/
def WFTS (h : TSHeap α) : Prop :=
  ∀ i < h.length, ∀ s ∈ tsGetFns h i, ∀ j, s.writesTo = some j → j < h.length

instance decNoWrite (h : Heap α) (t : Nat) : Decidable (NoWrite h t) := by
  unfold NoWrite; infer_instance

instance decAvoidsExc (h : Heap α) (p e : Nat) : Decidable (AvoidsExc h p e) := by
  unfold AvoidsExc; infer_instance

instance decWF (h : Heap α) : Decidable (WF h) := by
  unfold WF; infer_instance

instance decNoWriteTS (h : TSHeap α) (t : Nat) : Decidable (NoWriteTS h t) := by
  unfold NoWriteTS; infer_instance

instance decAvoidsExcTS (h : TSHeap α) (p e : Nat) : Decidable (AvoidsExcTS h p e) := by
  unfold AvoidsExcTS; infer_instance

instance decWFTS (h : TSHeap α) : Decidable (WFTS h) := by
  unfold WFTS; infer_instance

/-- Heap evolution along a publish cascade: instances are never removed and
subscriber lists only ever shrink (`unlink`) or start empty (fresh allocs). -/
def Shrinks (h h' : Heap α) : Prop :=
  h.length ≤ h'.length ∧ ∀ i, ∀ s ∈ getFns h' i, s ∈ getFns h i

/-- Two heaps that agree everywhere except possibly on the subscriber list
of timeline `t` (used to compare a run with a panicking subscriber present
against the run with it removed). -/
def agreesExc (t : Nat) (g g' : Heap α) : Prop :=
  g.length = g'.length ∧ (∀ j, getLast g j = getLast g' j) ∧
    ∀ j, j ≠ t → getFns g j = getFns g' j

/-- Lift `agreesExc` to cascade outcomes: both diverge, or both terminate in
related heaps. -/
def OptAgrees (t : Nat) : Option (Heap α) → Option (Heap α) → Prop
  | none, none => True
  | some H, some H' => agreesExc t H H'
  | _, _ => False

/-- A thread-safe publish only rewrites value cells: length, every
subscriber list and every poison flag are unchanged. -/
def TSStatic (h h' : TSHeap α) : Prop :=
  h'.length = h.length ∧ ∀ j, (tsGet h' j).fns = (tsGet h j).fns ∧
    (tsGet h' j).lastPoisoned = (tsGet h j).lastPoisoned ∧
    (tsGet h' j).fnsPoisoned = (tsGet h j).fnsPoisoned

/-- Thread-safe heaps agreeing everywhere except possibly on the subscriber
list of `t`. -/
def tsAgreesExc (t : Nat) (g g' : TSHeap α) : Prop :=
  g.length = g'.length ∧ (∀ j, tsGetLast g j = tsGetLast g' j) ∧
    (∀ j, (tsGet g j).lastPoisoned = (tsGet g' j).lastPoisoned ∧
      (tsGet g j).fnsPoisoned = (tsGet g' j).fnsPoisoned) ∧
    ∀ j, j ≠ t → tsGetFns g j = tsGetFns g' j

/-- Lift `tsAgreesExc` to thread-safe outcomes. -/
def TSResAgrees (t : Nat) : TSRes α → TSRes α → Prop
  | .ok H, .ok H' => tsAgreesExc t H H'
  | .deadlock, .deadlock => True
  | .fuelOut, .fuelOut => True
  | _, _ => False

/-- A whole sequence of thread-safe `next` calls on the same timeline,
started with no subscriber mutex held. -/
def tsPublishSeq (fuel : Nat) (h : TSHeap α) (i : Nat) : List α → Option (TSHeap α)
  | [] => some h
  | v :: vs =>
      match ThreadSafeTimeline.next fuel [] h i v with
      | .ok h' => tsPublishSeq fuel h' i vs
      | _ => none

/-- Extract the heap of a normal thread-safe outcome. -/
def TSRes.getD (r : TSRes α) (d : TSHeap α) : TSHeap α :=
  match r with
  | .ok h => h
  | _ => d

/-- A heap with a panicking middle subscriber on timeline 0 feeding
timelines 1 and 2 (single-threaded variant). -/
def c3WHeapTL : Heap Int :=
  [⟨0, [Sub.map (fun a => a + 1) 1, Sub.fail, Sub.map (fun a => a + 2) 2]⟩,
   ⟨0, []⟩, ⟨0, []⟩]

/-- Thread-safe counterpart of `c3WHeapTL`. -/
def c3WHeapTS : TSHeap Int :=
  [⟨0, false, [TSSub.map (fun a => a + 1) 1, TSSub.fail, TSSub.map (fun a => a + 2) 2], false⟩,
   ⟨0, false, [], false⟩, ⟨0, false, [], false⟩]

/-- A timeline with one subscriber, aliased by two handles in the Rust
program; used to evaluate the `Drop` impl. -/
def c1HeapTL : Heap Int := [⟨0, [Sub.map (fun a => a + 1) 1]⟩, ⟨1, []⟩]

/-- Thread-safe counterpart of `c1HeapTL`. -/
def c1HeapTS : TSHeap Int :=
  [⟨0, false, [TSSub.map (fun a => a + 1) 1], false⟩, ⟨1, false, [], false⟩]

/-- A thread-safe timeline whose only subscriber re-entrantly publishes into
the same timeline. -/
def c2Heap : TSHeap Int := [⟨0, false, [TSSub.map (fun a => a) 0], false⟩]

/-- A thread-safe timeline with a healthy value lock, a poisoned subscriber
mutex, and one subscriber. -/
def c6Heap : TSHeap Int :=
  [⟨0, false, [TSSub.map (fun a => a + 1) 1], true⟩, ⟨5, false, [], false⟩]

/-- A poisoned-value-lock timeline (for the read/write poison split). -/
def c6WHeapA : TSHeap Int := [⟨3, true, [], false⟩]

/-- A poisoned-subscriber-mutex timeline. -/
def c6WHeapB : TSHeap Int := [⟨3, false, [], true⟩]

/-- A fresh timeline holding `0`, input of the bind counterexample. -/
def c4Heap0 : Heap Int := [⟨0, []⟩]

/-- `c4Heap0.bind(|a| Timeline::new(a + 1))`: heap and bound handle. -/
def c4Bound : Heap Int × Nat := Timeline.bind c4Heap0 0 (fun a => TLRet.fresh (a + 1))

/-- A source whose bind subscriber returns a clone of the shared timeline 1,
which itself has a subscriber feeding timeline 3. -/
def c10WHeap : Heap Int :=
  [⟨0, [Sub.bind (fun _ => TLRet.clone 1) 2]⟩, ⟨5, [Sub.map (fun a => a) 3]⟩,
   ⟨9, []⟩, ⟨0, []⟩]

/-- A source whose bind subscriber evaluates the chain function to a clone of
the source itself (bound target distinct). -/
def c10xHeap : Heap Int := [⟨0, [Sub.bind (fun _ => TLRet.clone 0) 1]⟩, ⟨5, []⟩]

/-! ## Basic heap lemmas -/

@[simp] theorem getTL_set_self {h : Heap α} {i : Nat} {r : TL α} (hi : i < h.length) :
    getTL (h.set i r) i = r := by
  simp [getTL, List.getElem?_set_eq_of_lt r hi]

@[simp] theorem getTL_set_ne {h : Heap α} {i j : Nat} {r : TL α} (hij : i ≠ j) :
    getTL (h.set i r) j = getTL h j := by
  simp [getTL, List.getElem?_set_ne hij]

theorem getTL_append_lt {h l : Heap α} {j : Nat} (hj : j < h.length) :
    getTL (h ++ l) j = getTL h j := by
  simp [getTL, List.getElem?_append, hj]

@[simp] theorem getTL_append_self {h : Heap α} {r : TL α} :
    getTL (h ++ [r]) h.length = r := by
  simp [getTL, List.getElem?_concat_length]

theorem getTL_oob {h : Heap α} {j : Nat} (hj : h.length ≤ j) :
    getTL h j = ⟨default, []⟩ := by
  simp [getTL, List.getElem?_len_le hj]

@[simp] theorem length_setLast {h : Heap α} {i : Nat} {v : α} :
    (setLast h i v).length = h.length := by
  simp [setLast]

@[simp] theorem length_setFns {h : Heap α} {i : Nat} {fs : List (Sub α)} :
    (setFns h i fs).length = h.length := by
  simp [setFns]

theorem getLast_setLast_self {h : Heap α} {i : Nat} {v : α} (hi : i < h.length) :
    getLast (setLast h i v) i = v := by
  simp [getLast, setLast, getTL_set_self hi]

theorem getLast_setLast_ne {h : Heap α} {i j : Nat} {v : α} (hij : i ≠ j) :
    getLast (setLast h i v) j = getLast h j := by
  simp [getLast, setLast, getTL_set_ne hij]

theorem getFns_setLast {h : Heap α} {i j : Nat} {v : α} :
    getFns (setLast h i v) j = getFns h j := by
  by_cases hij : i = j
  · subst hij
    by_cases hi : i < h.length
    · simp [getFns, setLast, getTL_set_self hi]
    · simp [setLast, List.set_eq_of_length_le (Nat.le_of_not_lt hi)]
  · simp [getFns, setLast, getTL_set_ne hij]

theorem getLast_setFns {h : Heap α} {i j : Nat} {fs : List (Sub α)} :
    getLast (setFns h i fs) j = getLast h j := by
  by_cases hij : i = j
  · subst hij
    by_cases hi : i < h.length
    · simp [getLast, setFns, getTL_set_self hi]
    · simp [setFns, List.set_eq_of_length_le (Nat.le_of_not_lt hi)]
  · simp [getLast, setFns, getTL_set_ne hij]

theorem getFns_setFns_self {h : Heap α} {i : Nat} {fs : List (Sub α)} (hi : i < h.length) :
    getFns (setFns h i fs) i = fs := by
  simp [getFns, setFns, getTL_set_self hi]

theorem getFns_setFns_ne {h : Heap α} {i j : Nat} {fs : List (Sub α)} (hij : i ≠ j) :
    getFns (setFns h i fs) j = getFns h j := by
  simp [getFns, setFns, getTL_set_ne hij]

theorem getFns_oob {h : Heap α} {j : Nat} (hj : h.length ≤ j) :
    getFns h j = [] := by
  simp [getFns, getTL_oob hj]

@[simp] theorem length_alloc {h : Heap α} {v : α} :
    (alloc h v).1.length = h.length + 1 := by
  simp [alloc]

theorem getLast_alloc_lt {h : Heap α} {v : α} {j : Nat} (hj : j < h.length) :
    getLast (alloc h v).1 j = getLast h j := by
  simp [getLast, alloc, getTL_append_lt hj]

theorem getFns_alloc_lt {h : Heap α} {v : α} {j : Nat} (hj : j < h.length) :
    getFns (alloc h v).1 j = getFns h j := by
  simp [getFns, alloc, getTL_append_lt hj]

theorem getLast_alloc_self {h : Heap α} {v : α} :
    getLast (alloc h v).1 (alloc h v).2 = v := by
  simp [getLast, alloc]

theorem getFns_alloc_self {h : Heap α} {v : α} :
    getFns (alloc h v).1 (alloc h v).2 = [] := by
  simp [getFns, alloc]

theorem getFns_unlink_self {h : Heap α} {i : Nat} :
    getFns (Timeline.unlink h i) i = [] := by
  by_cases hi : i < h.length
  · simp [Timeline.unlink, getFns_setFns_self hi]
  · simp [Timeline.unlink, setFns, List.set_eq_of_length_le (Nat.le_of_not_lt hi),
      getFns_oob (Nat.le_of_not_lt hi)]

theorem getLast_unlink {h : Heap α} {i j : Nat} :
    getLast (Timeline.unlink h i) j = getLast h j := by
  simp [Timeline.unlink, getLast_setFns]

/-! ## Basic ThreadSafeTimeline heap lemmas -/

theorem tsGet_set_self {h : TSHeap α} {i : Nat} {r : TSTL α} (hi : i < h.length) :
    tsGet (h.set i r) i = r := by
  simp [tsGet, List.getElem?_set_eq_of_lt r hi]

theorem tsGet_set_ne {h : TSHeap α} {i j : Nat} {r : TSTL α} (hij : i ≠ j) :
    tsGet (h.set i r) j = tsGet h j := by
  simp [tsGet, List.getElem?_set_ne hij]

theorem tsGet_oob {h : TSHeap α} {j : Nat} (hj : h.length ≤ j) :
    tsGet h j = ⟨default, false, [], false⟩ := by
  simp [tsGet, List.getElem?_len_le hj]

theorem tsGet_append_lt {h l : TSHeap α} {j : Nat} (hj : j < h.length) :
    tsGet (h ++ l) j = tsGet h j := by
  simp [tsGet, List.getElem?_append, hj]

theorem tsGet_append_self {h : TSHeap α} {r : TSTL α} :
    tsGet (h ++ [r]) h.length = r := by
  simp [tsGet, List.getElem?_concat_length]

@[simp] theorem length_tsSetLast {h : TSHeap α} {i : Nat} {v : α} :
    (tsSetLast h i v).length = h.length := by
  simp [tsSetLast]

@[simp] theorem length_tsSetFns {h : TSHeap α} {i : Nat} {fs : List (TSSub α)} :
    (tsSetFns h i fs).length = h.length := by
  simp [tsSetFns]

theorem tsGet_setLast_self {h : TSHeap α} {i : Nat} {v : α} (hi : i < h.length) :
    tsGet (tsSetLast h i v) i = { tsGet h i with last := v } := by
  simp [tsSetLast, tsGet_set_self hi]

theorem tsGet_setLast_ne {h : TSHeap α} {i j : Nat} {v : α} (hij : i ≠ j) :
    tsGet (tsSetLast h i v) j = tsGet h j := by
  simp [tsSetLast, tsGet_set_ne hij]

theorem tsGet_setLast_fns {h : TSHeap α} {i j : Nat} {v : α} :
    (tsGet (tsSetLast h i v) j).fns = (tsGet h j).fns := by
  by_cases hij : i = j
  · subst hij
    by_cases hi : i < h.length
    · simp [tsGet_setLast_self hi]
    · simp [tsSetLast, List.set_eq_of_length_le (Nat.le_of_not_lt hi)]
  · simp [tsGet_setLast_ne hij]

theorem tsGet_setLast_fnsPoisoned {h : TSHeap α} {i j : Nat} {v : α} :
    (tsGet (tsSetLast h i v) j).fnsPoisoned = (tsGet h j).fnsPoisoned := by
  by_cases hij : i = j
  · subst hij
    by_cases hi : i < h.length
    · simp [tsGet_setLast_self hi]
    · simp [tsSetLast, List.set_eq_of_length_le (Nat.le_of_not_lt hi)]
  · simp [tsGet_setLast_ne hij]

theorem tsGet_setLast_lastPoisoned {h : TSHeap α} {i j : Nat} {v : α} :
    (tsGet (tsSetLast h i v) j).lastPoisoned = (tsGet h j).lastPoisoned := by
  by_cases hij : i = j
  · subst hij
    by_cases hi : i < h.length
    · simp [tsGet_setLast_self hi]
    · simp [tsSetLast, List.set_eq_of_length_le (Nat.le_of_not_lt hi)]
  · simp [tsGet_setLast_ne hij]

theorem tsGetLast_setLast_self {h : TSHeap α} {i : Nat} {v : α} (hi : i < h.length) :
    tsGetLast (tsSetLast h i v) i = v := by
  simp [tsGetLast, tsGet_setLast_self hi]

theorem tsGetLast_setLast_ne {h : TSHeap α} {i j : Nat} {v : α} (hij : i ≠ j) :
    tsGetLast (tsSetLast h i v) j = tsGetLast h j := by
  simp [tsGetLast, tsGet_setLast_ne hij]

theorem tsGet_setFns_self {h : TSHeap α} {i : Nat} {fs : List (TSSub α)} (hi : i < h.length) :
    tsGet (tsSetFns h i fs) i = { tsGet h i with fns := fs } := by
  simp [tsSetFns, tsGet_set_self hi]

theorem tsGet_setFns_ne {h : TSHeap α} {i j : Nat} {fs : List (TSSub α)} (hij : i ≠ j) :
    tsGet (tsSetFns h i fs) j = tsGet h j := by
  simp [tsSetFns, tsGet_set_ne hij]

theorem tsGetLast_setFns {h : TSHeap α} {i j : Nat} {fs : List (TSSub α)} :
    tsGetLast (tsSetFns h i fs) j = tsGetLast h j := by
  by_cases hij : i = j
  · subst hij
    by_cases hi : i < h.length
    · simp [tsGetLast, tsGet_setFns_self hi]
    · simp [tsSetFns, List.set_eq_of_length_le (Nat.le_of_not_lt hi)]
  · simp [tsGetLast, tsGet_setFns_ne hij]

theorem setFns_setFns {h : Heap α} {i : Nat} {fs fs' : List (Sub α)} :
    setFns (setFns h i fs) i fs' = setFns h i fs' := by
  have hg : getLast (setFns h i fs) i = getLast h i := getLast_setFns
  simp only [setFns] at hg ⊢
  rw [hg, List.set_set]

theorem tsSetFns_setFns {h : TSHeap α} {i : Nat} {fs fs' : List (TSSub α)} :
    tsSetFns (tsSetFns h i fs) i fs' = tsSetFns h i fs' := by
  by_cases hi : i < h.length
  · simp only [tsSetFns, tsGet_set_self hi]
    rw [List.set_set]
  · simp [tsSetFns, List.set_eq_of_length_le (Nat.le_of_not_lt hi)]

theorem tsGetFns_setLast {h : TSHeap α} {i j : Nat} {v : α} :
    tsGetFns (tsSetLast h i v) j = tsGetFns h j := tsGet_setLast_fns

/-- Publishing on a `ThreadSafeTimeline` with no subscribers and healthy
locks just stores the value. -/
theorem ts_next_no_subs {h : TSHeap α} {t : Nat} {v : α} {fuel : Nat} {held : List Nat}
    (hlp : (tsGet h t).lastPoisoned = false) (hfp : (tsGet h t).fnsPoisoned = false)
    (hfs : tsGetFns h t = []) (hheld : t ∉ held) :
    ThreadSafeTimeline.next (fuel+1) held h t v = TSRes.ok (tsSetLast h t v) := by
  rw [ThreadSafeTimeline.next]
  simp only [hlp, Bool.false_eq_true, if_false, hheld, if_neg,
    tsGet_setLast_fnsPoisoned, hfp]
  rw [show tsGetFns (tsSetLast h t v) t = [] from tsGetFns_setLast.trans hfs]
  simp [ThreadSafeTimeline.runCallbacks]

/-- A bind whose chain function returns the source timeline itself never
terminates: its subscriber re-publishes into the source (re-running the same
subscriber) before it ever returns, so the cascade recurses forever. -/
theorem next_selfbind_diverges (monadf : α → TLRet α) (t : Nat) :
    ∀ (fuel : Nat) (borrowed : List Nat) (h : Heap α) (v : α),
      getFns h t = [Sub.bind monadf t] → t < h.length →
      Timeline.nextAux fuel borrowed h t v = none := by
  intro fuel
  induction fuel with
  | zero => intro borrowed h v _ _; rfl
  | succ k ih =>
    intro borrowed h v hf ht
    rw [Timeline.nextAux]
    simp only [getFns_setLast, hf, Timeline.runCallbacks, Timeline.invoke]
    cases hmv : monadf (getLast (setLast h t v) t) with
    | fresh w =>
      have hnone := ih (t :: borrowed) (alloc (setLast h t v) w).1 w
        (by rw [getFns_alloc_lt (by simpa using ht), getFns_setLast, hf])
        (by simpa using Nat.lt_succ_of_lt (by simpa using ht))
      simp [hnone]
    | clone j =>
      have hnone := ih (t :: borrowed) (setLast h t v) (getLast (setLast h t v) j)
        (by rw [getFns_setLast, hf]) (by simpa using ht)
      simp [hnone]

/-! ## Claim theorems -/

/-- Claim C1: dropping one of several live handles of a timeline must leave
the shared subscriber list unchanged.  The code violates this: `Drop::drop`
runs `self.unlink()` on every handle drop (both variants), so dropping any
clone clears the shared subscriber list.  This theorem evaluates the `Drop`
implementations at the failing input: a timeline with one registered
subscriber whose handle is dropped while another handle stays alive. -/
theorem c1_drop_clears_shared_subscribers :
    getFns (Timeline.dropHandle c1HeapTL 0) 0 = [] ∧ getFns c1HeapTL 0 ≠ [] ∧
    tsGetFns (ThreadSafeTimeline.dropHandle c1HeapTS 0) 0 = [] ∧
    tsGetFns c1HeapTS 0 ≠ [] := by
  refine ⟨rfl, ?_, rfl, ?_⟩ <;> simp [c1HeapTL, c1HeapTS, getFns, tsGetFns, getTL, tsGet]

/-- Claim C10 (counterexample): when the chain function evaluates to a clone
of the source itself, dropping it runs `unlink`, whose `fns.borrow_mut()`
panics with a `BorrowMutError` while the publish loop still holds the
`fns.borrow()` `Ref` on the source; the panic is caught by `catch_unwind`
and the source's subscriber list survives the publish — the claim says every
such publish clears it.  (The forwarded value does reach the bound target.) -/
theorem c10_source_clone_unlink_caught :
    getFns ((Timeline.next 3 c10xHeap 0 7).getD []) 0 = getFns c10xHeap 0 ∧
    getFns c10xHeap 0 ≠ [] ∧
    getLast ((Timeline.next 3 c10xHeap 0 7).getD []) 1 = 7 := by
  refine ⟨rfl, ?_, rfl⟩
  simp [c10xHeap, getFns, getTL]

/-- Claim C10 (amended): each invocation of the subscriber registered by
`bind` drops the inner timeline `f(a)` before returning, and the `Drop`
impl unlinks it; when the chain function evaluates to a clone of a shared
timeline `s` that is not in the middle of publishing (here: not the source
itself), any terminating publish on the source leaves `s` with an empty
subscriber list.  For `s` the currently publishing source, the unlink
panics on the live `fns` borrow, is caught, and the list survives. -/
theorem c10_bind_drop_unlinks_inner
    (h : Heap α) (t s b : Nat) (monadf : α → TLRet α) (v : α) (fuel : Nat)
    (ht : t < h.length)
    (hfns : getFns h t = [Sub.bind monadf b])
    (hmf : monadf v = TLRet.clone s) (hst : s ≠ t) :
    ∀ h2, Timeline.next fuel h t v = some h2 → getFns h2 s = [] := by
  intro h2 hnext
  match fuel with
  | 0 => exact absurd hnext (by simp [Timeline.next, Timeline.nextAux])
  | fuel+1 =>
    rw [Timeline.next, Timeline.nextAux] at hnext
    simp only [getFns_setLast, hfns, Timeline.runCallbacks, getLast_setLast_self ht,
      Timeline.invoke, hmf, List.mem_singleton, List.mem_cons,
      List.not_mem_nil, or_false, if_neg hst] at hnext
    cases hinner : Timeline.nextAux fuel [t] (setLast h t v) b
        (getLast (setLast h t v) s) with
    | none => rw [hinner] at hnext; simp at hnext
    | some h'' =>
      rw [hinner] at hnext
      simp only [Option.map_some'] at hnext
      cases hnext
      exact getFns_unlink_self

/-- Witness for the amended C10: the shared timeline 1 (which had a
subscriber feeding timeline 3) ends with an empty subscriber list after a
publish on source 0. -/
theorem c10_unlink_witness :
    getFns ((Timeline.next 4 c10WHeap 0 1).getD []) 1 = [] :=
  c10_bind_drop_unlinks_inner c10WHeap 0 1 2 (fun _ => TLRet.clone 1) 1 4
    (by decide) rfl rfl (by decide) ((Timeline.next 4 c10WHeap 0 1).getD []) rfl

/-- Claim C2 (counterexample): the claim says a re-entrant publish from
within a callback completes without deadlock; on this one-subscriber
timeline whose callback publishes back into the same timeline, `next`
deadlocks (the subscriber `MutexGuard` is still held during the loop). -/
theorem c2_reentrant_publish_deadlocks :
    ThreadSafeTimeline.next 5 [] c2Heap 0 1 = TSRes.deadlock := rfl

/-- Claim C2 (amended): `ThreadSafeTimeline::next` iterates the subscriber
list while still holding the `MutexGuard` obtained from `self.fns.lock()`,
so for every callback `f` and every value, a re-entrant publish into the
same timeline from within the callback deadlocks instead of completing. -/
theorem c2_lock_held_reentrant_deadlock
    (f : α → α) (v0 v : α) (fuel : Nat) (hfuel : 2 ≤ fuel) :
    ThreadSafeTimeline.next fuel [] [⟨v0, false, [TSSub.map f 0], false⟩] 0 v
      = TSRes.deadlock := by
  obtain ⟨k, rfl⟩ : ∃ k, fuel = k + 2 := ⟨fuel - 2, by omega⟩
  simp [ThreadSafeTimeline.next, ThreadSafeTimeline.runCallbacks,
    tsGet, tsSetLast, tsGetLast, tsGetFns]

/-- Witness for the amended C2 theorem at a concrete input. -/
theorem c2_lock_held_witness :
    ThreadSafeTimeline.next 2 []
      [⟨(0 : Int), false, [TSSub.map (fun a => a) 0], false⟩] 0 1
      = TSRes.deadlock :=
  c2_lock_held_reentrant_deadlock (fun a => a) 0 1 2 (by decide)

/-- Claim C6 (counterexample): with the value lock healthy and the
subscriber mutex poisoned, `next` does update the stored value (from 0 to 7
here) and only skips notification — the claim asserts the stored value is
not updated in this case. -/
theorem c6_poisoned_fns_still_updates :
    ThreadSafeTimeline.next 5 [] c6Heap 0 7 = TSRes.ok (tsSetLast c6Heap 0 7) ∧
    tsGetLast c6Heap 0 = 0 ∧ tsGetLast (tsSetLast c6Heap 0 7) 0 = 7 := ⟨rfl, rfl, rfl⟩

/-- Claim C6 (amended): on a poisoned value lock, `current`/`last` is a
fatal error to the reader and `next` returns with no update and no
notification; on a poisoned subscriber mutex (value lock healthy), `next`
updates the stored value and returns without notifying any subscriber; in
both cases the publish returns normally and the timeline continues to
exist. -/
theorem c6_poison_semantics
    (h : TSHeap α) (i : Nat) (v : α) (fuel : Nat) (held : List Nat) :
    ((tsGet h i).lastPoisoned = true →
        ThreadSafeTimeline.next (fuel+1) held h i v = TSRes.ok h ∧
        ThreadSafeTimeline.lastVal h i = none) ∧
    ((tsGet h i).lastPoisoned = false → (tsGet h i).fnsPoisoned = true → i ∉ held →
        ThreadSafeTimeline.next (fuel+1) held h i v = TSRes.ok (tsSetLast h i v)) := by
  constructor
  · intro hp
    constructor
    · rw [ThreadSafeTimeline.next]; simp [hp]
    · simp [ThreadSafeTimeline.lastVal, hp]
  · intro hlp hfp hheld
    rw [ThreadSafeTimeline.next]
    simp [hlp, hheld, tsGet_setLast_fnsPoisoned, hfp]

/-- Witness for the amended C6 theorem at concrete poisoned heaps. -/
theorem c6_poison_witness :
    (ThreadSafeTimeline.next 3 [] c6WHeapA 0 9 = TSRes.ok c6WHeapA ∧
      ThreadSafeTimeline.lastVal c6WHeapA 0 = none) ∧
    ThreadSafeTimeline.next 3 [] c6WHeapB 0 9 = TSRes.ok (tsSetLast c6WHeapB 0 9) :=
  ⟨(c6_poison_semantics c6WHeapA 0 9 2 []).1 rfl,
   (c6_poison_semantics c6WHeapB 0 9 2 []).2 rfl rfl (by simp)⟩

/-- Claim C9: `unlink()` clears the subscriber list, leaves the current
value unchanged, is idempotent, and a publish after `unlink` invokes no
previously registered subscriber (the heap changes only by the stored
value, so every derived timeline keeps its last forwarded value); both
variants, the thread-safe one under healthy locks. -/
theorem c9_unlink_clears_and_preserves :
    (∀ (h : Heap α) (t : Nat) (v : α) (fuel : Nat),
      getFns (Timeline.unlink h t) t = [] ∧
      getLast (Timeline.unlink h t) t = getLast h t ∧
      Timeline.unlink (Timeline.unlink h t) t = Timeline.unlink h t ∧
      Timeline.next (fuel+1) (Timeline.unlink h t) t v
        = some (setLast (Timeline.unlink h t) t v)) ∧
    (∀ (h : TSHeap α) (t : Nat) (v : α) (fuel : Nat),
      (tsGet h t).lastPoisoned = false → (tsGet h t).fnsPoisoned = false →
      tsGetFns (ThreadSafeTimeline.unlink h t) t = [] ∧
      tsGetLast (ThreadSafeTimeline.unlink h t) t = tsGetLast h t ∧
      ThreadSafeTimeline.unlink (ThreadSafeTimeline.unlink h t) t
        = ThreadSafeTimeline.unlink h t ∧
      ThreadSafeTimeline.next (fuel+1) [] (ThreadSafeTimeline.unlink h t) t v
        = TSRes.ok (tsSetLast (ThreadSafeTimeline.unlink h t) t v)) := by
  constructor
  · intro h t v fuel
    refine ⟨getFns_unlink_self, getLast_unlink, setFns_setFns, ?_⟩
    rw [Timeline.next, Timeline.nextAux]
    simp [getFns_setLast, getFns_unlink_self, Timeline.runCallbacks]
  · intro h t v fuel hlp hfp
    have hu : ThreadSafeTimeline.unlink h t = tsSetFns h t [] := by
      simp [ThreadSafeTimeline.unlink, hfp]
    have hflags : tsGet (ThreadSafeTimeline.unlink h t) t
        = { tsGet h t with fns := [] } := by
      rw [hu]
      by_cases ht : t < h.length
      · exact tsGet_setFns_self ht
      · rw [tsSetFns, List.set_eq_of_length_le (Nat.le_of_not_lt ht),
          tsGet_oob (Nat.le_of_not_lt ht)]
    have hfs : tsGetFns (ThreadSafeTimeline.unlink h t) t = [] := by
      simp [tsGetFns, hflags]
    refine ⟨hfs, by simp [tsGetLast, hflags], ?_, ?_⟩
    · rw [hu, ThreadSafeTimeline.unlink]
      rw [hu] at hflags
      simp [hflags, hfp, tsSetFns_setFns]
    · exact ts_next_no_subs (by simp [hflags, hlp]) (by simp [hflags, hfp]) hfs
        (by simp)

/-- Witness for C9 at a concrete heap. -/
theorem c9_unlink_witness :
    (getFns (Timeline.unlink c1HeapTL 0) 0 = [] ∧
      getLast (Timeline.unlink c1HeapTL 0) 0 = getLast c1HeapTL 0 ∧
      Timeline.unlink (Timeline.unlink c1HeapTL 0) 0 = Timeline.unlink c1HeapTL 0 ∧
      Timeline.next 3 (Timeline.unlink c1HeapTL 0) 0 7
        = some (setLast (Timeline.unlink c1HeapTL 0) 0 7)) ∧
    (tsGetFns (ThreadSafeTimeline.unlink c1HeapTS 0) 0 = [] ∧
      tsGetLast (ThreadSafeTimeline.unlink c1HeapTS 0) 0 = tsGetLast c1HeapTS 0 ∧
      ThreadSafeTimeline.unlink (ThreadSafeTimeline.unlink c1HeapTS 0) 0
        = ThreadSafeTimeline.unlink c1HeapTS 0 ∧
      ThreadSafeTimeline.next 3 [] (ThreadSafeTimeline.unlink c1HeapTS 0) 0 7
        = TSRes.ok (tsSetLast (ThreadSafeTimeline.unlink c1HeapTS 0) 0 7)) :=
  ⟨c9_unlink_clears_and_preserves.1 c1HeapTL 0 7 2,
   c9_unlink_clears_and_preserves.2 c1HeapTS 0 7 2 rfl rfl⟩

/-- Claim C4 (counterexample): the claim says a publish performed directly
on the initial inner timeline `T_b0` is not reflected in the bound
timeline; but `bind` returns `monadf(self.last())` itself, so `T_b0` IS the
bound timeline: publishing 99 on it makes the bound timeline's current
value 99 (it was 1). -/
theorem c4_publish_on_initial_inner_reflected :
    c4Bound.2 = 1 ∧ getLast c4Bound.1 1 = 1 ∧
    (Timeline.next 3 c4Bound.1 1 99).map (fun h => getLast h 1) = some 99 ∧
    ((99 : Int) ≠ 1) := ⟨rfl, rfl, rfl, by decide⟩

/-- Claim C4 (amended): the bound timeline is the very instance the chain
function returned at bind time, so direct publishes on it are reflected;
but for inner instances produced by later invocations of `f` (on publishes
of the source), only the value current at evaluation time is forwarded: a
direct publish on such an instance afterwards is not reflected in the bound
timeline.  Scenario: source 0, pre-existing timeline 1 holding `u`; the
chain function returns a fresh timeline at bind time and a clone of
timeline 1 afterwards; after `t.publish(v)` the bound timeline (index 2)
holds `u`, and after a direct publish of `w` on timeline 1 it still holds
`u`. -/
theorem c4_later_inner_not_live {α : Type} [Inhabited α] [DecidableEq α]
    (v0 u v w w0 : α) (hv : v ≠ v0) (fuel : Nat) (hfuel : 2 ≤ fuel) :
    (Timeline.bind [⟨v0, []⟩, ⟨u, []⟩] 0
        (fun a => if a = v0 then TLRet.fresh w0 else TLRet.clone 1)).2 = 2 ∧
    ((Timeline.next fuel
        (Timeline.bind [⟨v0, []⟩, ⟨u, []⟩] 0
          (fun a => if a = v0 then TLRet.fresh w0 else TLRet.clone 1)).1 0 v).bind
      (fun h2 => (Timeline.next fuel h2 1 w).map
        (fun h3 => (getLast h2 2, getLast h3 2, getLast h3 1))))
      = some (u, u, w) := by
  obtain ⟨k, rfl⟩ : ∃ k, fuel = k + 2 := ⟨fuel - 2, by omega⟩
  constructor
  · simp [Timeline.bind, getLast, getTL, alloc]
  · simp [Timeline.bind, Timeline.next, Timeline.nextAux, Timeline.runCallbacks,
      Timeline.invoke, Timeline.unlink, getLast, getFns, getTL, alloc, setLast,
      setFns, hv]

/-- Witness for the amended C4 theorem at concrete values. -/
theorem c4_later_inner_witness :
    (Timeline.bind [⟨(0 : Int), []⟩, ⟨5, []⟩] 0
        (fun a => if a = 0 then TLRet.fresh 3 else TLRet.clone 1)).2 = 2 ∧
    ((Timeline.next 2
        (Timeline.bind [⟨(0 : Int), []⟩, ⟨5, []⟩] 0
          (fun a => if a = 0 then TLRet.fresh 3 else TLRet.clone 1)).1 0 1).bind
      (fun h2 => (Timeline.next 2 h2 1 7).map
        (fun h3 => (getLast h2 2, getLast h3 2, getLast h3 1))))
      = some (5, 5, 7) :=
  c4_later_inner_not_live 0 5 1 7 3 (by decide) 2 (by decide)

/-- Claim C5: after `bound = t.bind(f)` and `t.publish(v)` (scenario: `t`
is a fresh timeline holding `v0`), the bound timeline's current value
equals `f(v).current()` evaluated at the moment the registered subscriber
evaluated `f(v)` (i.e. in the heap right after `t`'s value cell was set to
`v`), for every chain function and every terminating publish. -/
theorem c5_bind_forwards_inner_current
    (v0 v : α) (monadf : α → TLRet α) (fuel : Nat)
    (hr0 : RetValid (monadf v0) 1) :
    ∀ h2, Timeline.next fuel (Timeline.bind [⟨v0, []⟩] 0 monadf).1 0 v = some h2 →
      getLast h2 (Timeline.bind [⟨v0, []⟩] 0 monadf).2
        = retValAt (setLast (Timeline.bind [⟨v0, []⟩] 0 monadf).1 0 v) (monadf v) := by
  intro h2 hnext
  cases hm0 : monadf v0 with
  | clone j =>
    rw [hm0] at hr0
    have hj : j = 0 := by
      have hlt : j < 1 := hr0
      omega
    subst hj
    exfalso
    have hbind : Timeline.bind ([⟨v0, []⟩] : Heap α) 0 monadf
        = ([⟨v0, [Sub.bind monadf 0]⟩], 0) := by
      simp [Timeline.bind, show getLast ([⟨v0, []⟩] : Heap α) 0 = v0 from rfl, hm0,
        setFns, getFns, getTL, getLast]
    rw [hbind] at hnext
    rw [show Timeline.next fuel ([⟨v0, [Sub.bind monadf 0]⟩] : Heap α) 0 v
        = Timeline.nextAux fuel [] ([⟨v0, [Sub.bind monadf 0]⟩] : Heap α) 0 v from rfl,
      next_selfbind_diverges monadf 0 fuel [] ([⟨v0, [Sub.bind monadf 0]⟩] : Heap α) v
        rfl (by simp)] at hnext
    exact Option.noConfusion hnext
  | fresh w0 =>
    have hbind : Timeline.bind ([⟨v0, []⟩] : Heap α) 0 monadf
        = ([⟨v0, [Sub.bind monadf 1]⟩, ⟨w0, []⟩], 1) := by
      simp [Timeline.bind, show getLast ([⟨v0, []⟩] : Heap α) 0 = v0 from rfl, hm0,
        alloc, setFns, getFns, getTL, getLast]
    rw [hbind] at hnext ⊢
    match fuel with
    | 0 => exact absurd hnext (by simp [Timeline.next, Timeline.nextAux])
    | 1 =>
      exfalso
      cases hmv : monadf v <;>
        simp [Timeline.next, Timeline.nextAux, Timeline.runCallbacks, Timeline.invoke,
          alloc, setLast, setFns, getLast, getFns, getTL, hmv] at hnext
    | (m+2) =>
      cases hmv : monadf v with
      | fresh w =>
        have hstep : Timeline.next (m+2) ([⟨v0, [Sub.bind monadf 1]⟩, ⟨w0, []⟩] : Heap α) 0 v
            = some [⟨v, [Sub.bind monadf 1]⟩, ⟨w, []⟩, ⟨w, []⟩] := by
          rw [Timeline.next, Timeline.nextAux]
          simp [Timeline.runCallbacks, Timeline.invoke, setLast, getFns, getLast, getTL,
            hmv, alloc, Timeline.unlink, setFns, Timeline.nextAux]
        rw [hstep, Option.some.injEq] at hnext
        subst hnext
        simp [retValAt, hmv, getLast, getTL, setLast, getFns]
      | clone j =>
        by_cases hj0 : j = 0
        · subst hj0
          have hstep : Timeline.next (m+2)
              ([⟨v0, [Sub.bind monadf 1]⟩, ⟨w0, []⟩] : Heap α) 0 v
              = some [⟨v, [Sub.bind monadf 1]⟩, ⟨v, []⟩] := by
            rw [Timeline.next, Timeline.nextAux]
            simp [Timeline.runCallbacks, Timeline.invoke, setLast, getFns, getLast,
              getTL, hmv, alloc, Timeline.unlink, setFns, Timeline.nextAux]
          rw [hstep, Option.some.injEq] at hnext
          subst hnext
          simp [retValAt, hmv, getLast, getTL, setLast, getFns]
        · have hstep : Timeline.next (m+2)
              ([⟨v0, [Sub.bind monadf 1]⟩, ⟨w0, []⟩] : Heap α) 0 v
              = some (Timeline.unlink
                  (setLast ([⟨v, [Sub.bind monadf 1]⟩, ⟨w0, []⟩] : Heap α) 1
                    (getLast ([⟨v, [Sub.bind monadf 1]⟩, ⟨w0, []⟩] : Heap α) j)) j) := by
            rw [Timeline.next, Timeline.nextAux]
            simp [Timeline.runCallbacks, Timeline.invoke, setLast, getFns, getLast,
              getTL, hmv, alloc, Timeline.unlink, setFns, Timeline.nextAux, hj0]
          rw [hstep, Option.some.injEq] at hnext
          subst hnext
          rw [getLast_unlink, getLast_setLast_self (by simp)]
          simp [retValAt, hmv]
          rw [show setLast ([⟨v0, [Sub.bind monadf 1]⟩, ⟨w0, []⟩] : Heap α) 0 v
            = ([⟨v, [Sub.bind monadf 1]⟩, ⟨w0, []⟩] : Heap α) from by
              simp [setLast, getFns, getTL]]


/-- Witness for C5 at a concrete chain function. -/
theorem c5_bind_witness :
    getLast ((Timeline.next 4
        (Timeline.bind [⟨(0 : Int), []⟩] 0 (fun a => TLRet.fresh (a * 10))).1 0 7).getD [])
      (Timeline.bind [⟨(0 : Int), []⟩] 0 (fun a => TLRet.fresh (a * 10))).2 = 70 :=
  c5_bind_forwards_inner_current 0 7 (fun a => TLRet.fresh (a * 10)) 4 trivial
    ((Timeline.next 4
        (Timeline.bind [⟨(0 : Int), []⟩] 0 (fun a => TLRet.fresh (a * 10))).1 0 7).getD [])
    rfl

end TimelineModel

namespace TimelineModel
variable {α : Type} [Inhabited α]

theorem getFns_unlink_ne {h : Heap α} {i j : Nat} (hij : i ≠ j) :
    getFns (Timeline.unlink h i) j = getFns h j := getFns_setFns_ne hij

theorem shrinks_refl {h : Heap α} : Shrinks h h := ⟨Nat.le_refl _, fun _ _ hs => hs⟩

theorem shrinks_trans {h1 h2 h3 : Heap α} (a : Shrinks h1 h2) (b : Shrinks h2 h3) :
    Shrinks h1 h3 := ⟨Nat.le_trans a.1 b.1, fun i s hs => a.2 i s (b.2 i s hs)⟩

theorem shrinks_setLast {h : Heap α} {i : Nat} {v : α} : Shrinks h (setLast h i v) :=
  ⟨by simp, fun j s hs => by rwa [getFns_setLast] at hs⟩

theorem shrinks_unlink {h : Heap α} {i : Nat} : Shrinks h (Timeline.unlink h i) := by
  refine ⟨by simp [Timeline.unlink], fun j s hs => ?_⟩
  by_cases hij : i = j
  · subst hij; rw [getFns_unlink_self] at hs; cases hs
  · rwa [getFns_unlink_ne hij] at hs

theorem shrinks_alloc {h : Heap α} {v : α} : Shrinks h (alloc h v).1 := by
  refine ⟨by simp, fun j s hs => ?_⟩
  rcases Nat.lt_trichotomy j h.length with hj | hj | hj
  · rwa [getFns_alloc_lt hj] at hs
  · subst hj
    rw [show getFns (alloc h v).1 h.length = [] from getFns_alloc_self] at hs
    cases hs
  · rw [getFns_oob (by simp [alloc]; omega)] at hs
    cases hs

theorem NoWrite.mono_shrinks {h h' : Heap α} {t : Nat} (hs : Shrinks h h') (hnw : NoWrite h t) :
    NoWrite h' t := by
  intro i hi s hsm
  have hmem := hs.2 i s hsm
  by_cases hlt : i < h.length
  · exact hnw i hlt s hmem
  · rw [getFns_oob (Nat.le_of_not_lt hlt)] at hmem; cases hmem

theorem AvoidsExc.avoids_mono_shrinks {h h' : Heap α} {p e : Nat} (hs : Shrinks h h')
    (ha : AvoidsExc h p e) : AvoidsExc h' p e := by
  intro i hi hie s hsm
  have hmem := hs.2 i s hsm
  by_cases hlt : i < h.length
  · exact ha i hlt hie s hmem
  · rw [getFns_oob (Nat.le_of_not_lt hlt)] at hmem; cases hmem

theorem NoClone.clone_mono_shrinks {h h' : Heap α} {t : Nat} (hs : Shrinks h h')
    (hc : NoClone h t) : NoClone h' t := by
  intro i hi s hsm
  have hmem := hs.2 i s hsm
  by_cases hlt : i < h.length
  · exact hc i hlt s hmem
  · rw [getFns_oob (Nat.le_of_not_lt hlt)] at hmem; cases hmem

theorem next_eq (fuel : Nat) (h : Heap α) (i : Nat) (v : α) :
    Timeline.next fuel h i v = Timeline.nextAux fuel [] h i v := rfl

theorem invoke_shrinks {nextF : List Nat → Heap α → Nat → α → Option (Heap α)}
    (Hn : ∀ borrowed h i v h', nextF borrowed h i v = some h' → Shrinks h h')
    {borrowed : List Nat} {h : Heap α} {s : Sub α} {v : α} {h' : Heap α}
    (hinv : Timeline.invoke nextF borrowed h s v = some h') : Shrinks h h' := by
  cases s with
  | map f b => exact Hn _ _ _ _ _ hinv
  | bind mf b =>
    rw [Timeline.invoke] at hinv
    cases hm : mf v with
    | fresh w =>
      rw [hm] at hinv
      simp only [Option.map_eq_some'] at hinv
      obtain ⟨H, hH, rfl⟩ := hinv
      exact shrinks_trans shrinks_alloc (shrinks_trans (Hn _ _ _ _ _ hH) shrinks_unlink)
    | clone j =>
      rw [hm] at hinv
      simp only [Option.map_eq_some'] at hinv
      obtain ⟨H, hH, rfl⟩ := hinv
      by_cases hj : j ∈ borrowed
      · rw [if_pos hj]
        exact Hn _ _ _ _ _ hH
      · rw [if_neg hj]
        exact shrinks_trans (Hn _ _ _ _ _ hH) shrinks_unlink
  | fail =>
    rw [Timeline.invoke] at hinv
    cases hinv
    exact shrinks_refl

theorem runCallbacks_shrinks {nextF : List Nat → Heap α → Nat → α → Option (Heap α)}
    (Hn : ∀ borrowed h i v h', nextF borrowed h i v = some h' → Shrinks h h') :
    ∀ (subs : List (Sub α)) (borrowed : List Nat) (h : Heap α) (i : Nat) (h' : Heap α),
      Timeline.runCallbacks nextF borrowed h i subs = some h' → Shrinks h h' := by
  intro subs
  induction subs with
  | nil =>
    intro borrowed h i h' hr
    rw [Timeline.runCallbacks] at hr
    cases hr
    exact shrinks_refl
  | cons s rest ih =>
    intro borrowed h i h' hr
    rw [Timeline.runCallbacks] at hr
    cases hinv : Timeline.invoke nextF borrowed h s (getLast h i) with
    | none => rw [hinv] at hr; cases hr
    | some h1 =>
      rw [hinv] at hr
      exact shrinks_trans (invoke_shrinks Hn hinv) (ih borrowed h1 i h' hr)

theorem nextAux_shrinks :
    ∀ (fuel : Nat) (borrowed : List Nat) (h : Heap α) (i : Nat) (v : α) (h' : Heap α),
      Timeline.nextAux fuel borrowed h i v = some h' → Shrinks h h' := by
  intro fuel
  induction fuel with
  | zero => intro borrowed h i v h' hn; exact absurd hn (by simp [Timeline.nextAux])
  | succ k ih =>
    intro borrowed h i v h' hn
    rw [Timeline.nextAux] at hn
    exact shrinks_trans shrinks_setLast (runCallbacks_shrinks ih _ _ _ _ _ hn)

theorem next_shrinks :
    ∀ (fuel : Nat) (h : Heap α) (i : Nat) (v : α) (h' : Heap α),
      Timeline.next fuel h i v = some h' → Shrinks h h' :=
  fun fuel h i v h' hn => nextAux_shrinks fuel [] h i v h' hn

theorem getFns_nil_of_shrinks {h h' : Heap α} {b : Nat} (hs : Shrinks h h')
    (hb : getFns h b = []) : getFns h' b = [] := by
  rcases hfs : getFns h' b with _ | ⟨s, rest⟩
  · rfl
  · exfalso
    have := hs.2 b s (by rw [hfs]; exact List.mem_cons_self s rest)
    rw [hb] at this
    cases this

end TimelineModel

namespace TimelineModel
variable {α : Type} [Inhabited α]

/-- NoWrite gives the per-subscriber fact for any index (out of range lists
are empty). -/
theorem NoWrite.write_at_mem {h : Heap α} {t i : Nat} (hnw : NoWrite h t)
    {s : Sub α} (hs : s ∈ getFns h i) : s.writesTo ≠ some t := by
  by_cases hlt : i < h.length
  · exact hnw i hlt s hs
  · rw [getFns_oob (Nat.le_of_not_lt hlt)] at hs; cases hs

theorem invoke_preserves {nextF : List Nat → Heap α → Nat → α → Option (Heap α)}
    (Hn : ∀ borrowed h i v h', nextF borrowed h i v = some h' → Shrinks h h')
    (Hp : ∀ borrowed h i v h' p, p < h.length → NoWrite h p → i ≠ p →
      nextF borrowed h i v = some h' → getLast h' p = getLast h p)
    {borrowed : List Nat} {h : Heap α} {s : Sub α} {v : α} {h' : Heap α} {p : Nat}
    (hp : p < h.length) (hnw : NoWrite h p) (hsw : s.writesTo ≠ some p)
    (hinv : Timeline.invoke nextF borrowed h s v = some h') :
    getLast h' p = getLast h p := by
  cases s with
  | map f b =>
    have hbp : b ≠ p := fun hbe => hsw (by rw [hbe, Sub.writesTo])
    exact Hp _ _ _ _ _ _ hp hnw hbp hinv
  | bind mf b =>
    have hbp : b ≠ p := fun hbe => hsw (by rw [hbe, Sub.writesTo])
    rw [Timeline.invoke] at hinv
    cases hm : mf v with
    | fresh w =>
      rw [hm] at hinv
      simp only [Option.map_eq_some'] at hinv
      obtain ⟨H, hH, rfl⟩ := hinv
      rw [getLast_unlink]
      rw [Hp _ _ _ _ _ _ (by simp; omega) (hnw.mono_shrinks shrinks_alloc) hbp hH]
      exact getLast_alloc_lt hp
    | clone j =>
      rw [hm] at hinv
      simp only [Option.map_eq_some'] at hinv
      obtain ⟨H, hH, rfl⟩ := hinv
      by_cases hj : j ∈ borrowed
      · rw [if_pos hj]
        exact Hp _ _ _ _ _ _ hp hnw hbp hH
      · rw [if_neg hj, getLast_unlink]
        exact Hp _ _ _ _ _ _ hp hnw hbp hH
  | fail =>
    rw [Timeline.invoke] at hinv
    cases hinv
    rfl

theorem runCallbacks_preserves {nextF : List Nat → Heap α → Nat → α → Option (Heap α)}
    (Hn : ∀ borrowed h i v h', nextF borrowed h i v = some h' → Shrinks h h')
    (Hp : ∀ borrowed h i v h' p, p < h.length → NoWrite h p → i ≠ p →
      nextF borrowed h i v = some h' → getLast h' p = getLast h p) :
    ∀ (subs : List (Sub α)) (borrowed : List Nat) (h : Heap α) (i : Nat) (h' : Heap α) (p : Nat),
      p < h.length → NoWrite h p → (∀ s ∈ subs, s.writesTo ≠ some p) →
      Timeline.runCallbacks nextF borrowed h i subs = some h' →
      getLast h' p = getLast h p := by
  intro subs
  induction subs with
  | nil =>
    intro borrowed h i h' p _ _ _ hr
    rw [Timeline.runCallbacks] at hr
    cases hr
    rfl
  | cons s rest ih =>
    intro borrowed h i h' p hp hnw hsubs hr
    rw [Timeline.runCallbacks] at hr
    cases hinv : Timeline.invoke nextF borrowed h s (getLast h i) with
    | none => rw [hinv] at hr; cases hr
    | some h1 =>
      rw [hinv] at hr
      have hs1 : Shrinks h h1 := invoke_shrinks Hn hinv
      rw [ih borrowed h1 i h' p (Nat.lt_of_lt_of_le hp hs1.1) (hnw.mono_shrinks hs1)
        (fun s' hs' => hsubs s' (List.mem_cons_of_mem s hs')) hr]
      exact invoke_preserves Hn Hp hp hnw (hsubs s (List.mem_cons_self s rest)) hinv

theorem nextAux_preserves :
    ∀ (fuel : Nat) (borrowed : List Nat) (h : Heap α) (i : Nat) (v : α) (h' : Heap α) (p : Nat),
      p < h.length → NoWrite h p →
      Timeline.nextAux fuel borrowed h i v = some h' →
      getLast h' p = if i = p then v else getLast h p := by
  intro fuel
  induction fuel with
  | zero =>
    intro borrowed h i v h' p _ _ hn
    exact absurd hn (by simp [Timeline.nextAux])
  | succ k ih =>
    intro borrowed h i v h' p hp hnw hn
    have ihp : ∀ borrowed h i v h' p, p < (h : Heap α).length → NoWrite h p → i ≠ p →
        Timeline.nextAux k borrowed h i v = some h' → getLast h' p = getLast h p := by
      intro borrowed h i v h' p hp hnw hip hn
      rw [ih borrowed h i v h' p hp hnw hn, if_neg hip]
    rw [Timeline.nextAux] at hn
    have hnw1 : NoWrite (setLast h i v) p := hnw.mono_shrinks shrinks_setLast
    have hp1 : p < (setLast h i v).length := by simpa using hp
    have hsubs : ∀ s ∈ getFns (setLast h i v) i, s.writesTo ≠ some p := by
      intro s hs
      rw [getFns_setLast] at hs
      exact hnw.write_at_mem hs
    rw [runCallbacks_preserves (nextAux_shrinks k) ihp _ _ _ _ _ _ hp1 hnw1 hsubs hn]
    by_cases hip : i = p
    · subst hip
      rw [if_pos rfl]
      exact getLast_setLast_self hp
    · rw [if_neg hip]
      exact getLast_setLast_ne hip

/-- Value-cell protection: if no subscriber anywhere publishes into `p`,
then a publish on `i` leaves `p`'s value unchanged (or stores `v` when
`i = p`). -/
theorem next_preserves :
    ∀ (fuel : Nat) (h : Heap α) (i : Nat) (v : α) (h' : Heap α) (p : Nat),
      p < h.length → NoWrite h p →
      Timeline.next fuel h i v = some h' →
      getLast h' p = if i = p then v else getLast h p :=
  fun fuel h i v h' p hp hnw hn => nextAux_preserves fuel [] h i v h' p hp hnw hn

end TimelineModel

namespace TimelineModel
variable {α : Type} [Inhabited α]

/-- Claim C7: with nobody publishing into `t` besides the external caller,
a terminating sequence of publishes leaves `current` equal to the last
published value (or the initial value when the sequence is empty). -/
theorem c7_publish_visibility
    (h : Heap α) (t : Nat) (vs : List α) (fuel : Nat) (h' : Heap α)
    (ht : t < h.length) (hnw : NoWrite h t)
    (hseq : Timeline.publishSeq fuel h t vs = some h') :
    getLast h' t = vs.getLastD (getLast h t) := by
  induction vs generalizing h with
  | nil =>
    rw [Timeline.publishSeq] at hseq
    cases hseq
    rfl
  | cons v vs ih =>
    rw [Timeline.publishSeq] at hseq
    cases hn : Timeline.next fuel h t v with
    | none => rw [hn] at hseq; cases hseq
    | some h1 =>
      rw [hn] at hseq
      have hs : Shrinks h h1 := next_shrinks fuel h t v h1 hn
      have hlast : getLast h1 t = v := by
        rw [next_preserves fuel h t v h1 t ht hnw hn, if_pos rfl]
      rw [List.getLastD_cons, ih h1 (Nat.lt_of_lt_of_le ht hs.1) (hnw.mono_shrinks hs) hseq, hlast]

end TimelineModel

namespace TimelineModel
variable {α : Type} [Inhabited α]

theorem c7_witness :
    getLast ((Timeline.publishSeq 2 c1HeapTL 0 [4, 9]).getD []) 0 = 9 :=
  c7_publish_visibility c1HeapTL 0 [4, 9] 2
    ((Timeline.publishSeq 2 c1HeapTL 0 [4, 9]).getD []) (by decide) (by decide) rfl

/-- Pair protection: `p` is written only from `e`'s own subscriber list, `e`
is written by nobody, and the publish happens on some third timeline — then
`p`'s value cell is untouched. -/
theorem invoke_preserves_exc {nextF : List Nat → Heap α → Nat → α → Option (Heap α)}
    (Hn : ∀ borrowed h i v h', nextF borrowed h i v = some h' → Shrinks h h')
    (Hp : ∀ borrowed h i v h' p e, p < h.length → e < h.length → p ≠ e →
      NoWrite h e → AvoidsExc h p e → i ≠ p → i ≠ e →
      nextF borrowed h i v = some h' → getLast h' p = getLast h p)
    {borrowed : List Nat} {h : Heap α} {s : Sub α} {v : α} {h' : Heap α} {p e : Nat}
    (hp : p < h.length) (he : e < h.length) (hpe : p ≠ e)
    (hnw : NoWrite h e) (hav : AvoidsExc h p e)
    (hswp : s.writesTo ≠ some p) (hswe : s.writesTo ≠ some e)
    (hinv : Timeline.invoke nextF borrowed h s v = some h') :
    getLast h' p = getLast h p := by
  cases s with
  | map f b =>
    have hbp : b ≠ p := fun hbe => hswp (by rw [hbe, Sub.writesTo])
    have hbe : b ≠ e := fun hbe => hswe (by rw [hbe, Sub.writesTo])
    exact Hp _ _ _ _ _ _ _ hp he hpe hnw hav hbp hbe hinv
  | bind mf b =>
    have hbp : b ≠ p := fun hbe => hswp (by rw [hbe, Sub.writesTo])
    have hbe : b ≠ e := fun hbe => hswe (by rw [hbe, Sub.writesTo])
    rw [Timeline.invoke] at hinv
    cases hm : mf v with
    | fresh w =>
      rw [hm] at hinv
      simp only [Option.map_eq_some'] at hinv
      obtain ⟨H, hH, rfl⟩ := hinv
      rw [getLast_unlink]
      rw [Hp _ _ _ _ _ _ _ (by simp; omega) (by simp; omega) hpe
        (hnw.mono_shrinks shrinks_alloc) (hav.avoids_mono_shrinks shrinks_alloc) hbp hbe hH]
      exact getLast_alloc_lt hp
    | clone j =>
      rw [hm] at hinv
      simp only [Option.map_eq_some'] at hinv
      obtain ⟨H, hH, rfl⟩ := hinv
      by_cases hj : j ∈ borrowed
      · rw [if_pos hj]
        exact Hp _ _ _ _ _ _ _ hp he hpe hnw hav hbp hbe hH
      · rw [if_neg hj, getLast_unlink]
        exact Hp _ _ _ _ _ _ _ hp he hpe hnw hav hbp hbe hH
  | fail =>
    rw [Timeline.invoke] at hinv
    cases hinv
    rfl

theorem runCallbacks_preserves_exc {nextF : List Nat → Heap α → Nat → α → Option (Heap α)}
    (Hn : ∀ borrowed h i v h', nextF borrowed h i v = some h' → Shrinks h h')
    (Hp : ∀ borrowed h i v h' p e, p < h.length → e < h.length → p ≠ e →
      NoWrite h e → AvoidsExc h p e → i ≠ p → i ≠ e →
      nextF borrowed h i v = some h' → getLast h' p = getLast h p) :
    ∀ (subs : List (Sub α)) (borrowed : List Nat) (h : Heap α) (i : Nat) (h' : Heap α) (p e : Nat),
      p < h.length → e < h.length → p ≠ e → NoWrite h e → AvoidsExc h p e →
      (∀ s ∈ subs, s.writesTo ≠ some p ∧ s.writesTo ≠ some e) →
      Timeline.runCallbacks nextF borrowed h i subs = some h' →
      getLast h' p = getLast h p := by
  intro subs
  induction subs with
  | nil =>
    intro borrowed h i h' p e _ _ _ _ _ _ hr
    rw [Timeline.runCallbacks] at hr
    cases hr
    rfl
  | cons s rest ih =>
    intro borrowed h i h' p e hp he hpe hnw hav hsubs hr
    rw [Timeline.runCallbacks] at hr
    cases hinv : Timeline.invoke nextF borrowed h s (getLast h i) with
    | none => rw [hinv] at hr; cases hr
    | some h1 =>
      rw [hinv] at hr
      have hs1 : Shrinks h h1 := invoke_shrinks Hn hinv
      obtain ⟨hswp, hswe⟩ := hsubs s (List.mem_cons_self s rest)
      rw [ih borrowed h1 i h' p e (Nat.lt_of_lt_of_le hp hs1.1) (Nat.lt_of_lt_of_le he hs1.1)
        hpe (hnw.mono_shrinks hs1) (hav.avoids_mono_shrinks hs1)
        (fun s' hs' => hsubs s' (List.mem_cons_of_mem s hs')) hr]
      exact invoke_preserves_exc Hn Hp hp he hpe hnw hav hswp hswe hinv

theorem nextAux_preserves_exc :
    ∀ (fuel : Nat) (borrowed : List Nat) (h : Heap α) (i : Nat) (v : α) (h' : Heap α) (p e : Nat),
      p < h.length → e < h.length → p ≠ e → NoWrite h e → AvoidsExc h p e →
      i ≠ p → i ≠ e →
      Timeline.nextAux fuel borrowed h i v = some h' → getLast h' p = getLast h p := by
  intro fuel
  induction fuel with
  | zero =>
    intro borrowed h i v h' p e _ _ _ _ _ _ _ hn
    exact absurd hn (by simp [Timeline.nextAux])
  | succ k ih =>
    intro borrowed h i v h' p e hp he hpe hnw hav hip hie hn
    rw [Timeline.nextAux] at hn
    have hsubs : ∀ s ∈ getFns (setLast h i v) i,
        s.writesTo ≠ some p ∧ s.writesTo ≠ some e := by
      intro s hs
      rw [getFns_setLast] at hs
      refine ⟨?_, hnw.write_at_mem hs⟩
      by_cases hlt : i < h.length
      · exact hav i hlt hie s hs
      · rw [getFns_oob (Nat.le_of_not_lt hlt)] at hs; cases hs
    rw [runCallbacks_preserves_exc (nextAux_shrinks k) ih _ _ _ _ _ _ _
      (by simpa using hp) (by simpa using he) hpe (hnw.mono_shrinks shrinks_setLast)
      (hav.avoids_mono_shrinks shrinks_setLast) hsubs hn]
    exact getLast_setLast_ne hip

theorem next_preserves_exc :
    ∀ (fuel : Nat) (h : Heap α) (i : Nat) (v : α) (h' : Heap α) (p e : Nat),
      p < h.length → e < h.length → p ≠ e → NoWrite h e → AvoidsExc h p e →
      i ≠ p → i ≠ e →
      Timeline.next fuel h i v = some h' → getLast h' p = getLast h p :=
  fun fuel h i v h' p e hp he hpe hnw hav hip hie hn =>
    nextAux_preserves_exc fuel [] h i v h' p e hp he hpe hnw hav hip hie hn

end TimelineModel

namespace TimelineModel
variable {α : Type} [Inhabited α]

theorem getFns_alloc_any {h : Heap α} {v : α} {j : Nat} :
    getFns (alloc h v).1 j = getFns h j := by
  rcases Nat.lt_trichotomy j h.length with hj | hj | hj
  · exact getFns_alloc_lt hj
  · subst hj
    rw [show getFns (alloc h v).1 h.length = [] from getFns_alloc_self,
      getFns_oob (Nat.le_refl _)]
  · rw [getFns_oob (h := (alloc h v).1) (by simp; omega), getFns_oob (Nat.le_of_lt hj)]

theorem NoClone.clone_at_mem {h : Heap α} {t i : Nat} (hc : NoClone h t)
    {s : Sub α} (hs : s ∈ getFns h i) : s.noCloneOf t := by
  by_cases hlt : i < h.length
  · exact hc i hlt s hs
  · rw [getFns_oob (Nat.le_of_not_lt hlt)] at hs; cases hs

/-- Subscriber-list protection: if no subscriber can evaluate its chain
function to a clone of `e`, a publish never changes `e`'s subscriber list. -/
theorem invoke_preserves_fns {nextF : List Nat → Heap α → Nat → α → Option (Heap α)}
    (Hn : ∀ borrowed h i v h', nextF borrowed h i v = some h' → Shrinks h h')
    (Hf : ∀ borrowed h i v h' e, NoClone h e → nextF borrowed h i v = some h' →
      getFns h' e = getFns h e)
    {borrowed : List Nat} {h : Heap α} {s : Sub α} {v : α} {h' : Heap α} {e : Nat}
    (hc : NoClone h e) (hsc : s.noCloneOf e)
    (hinv : Timeline.invoke nextF borrowed h s v = some h') :
    getFns h' e = getFns h e := by
  cases s with
  | map f b => exact Hf _ _ _ _ _ _ hc hinv
  | bind mf b =>
    rw [Timeline.invoke] at hinv
    cases hm : mf v with
    | fresh w =>
      rw [hm] at hinv
      simp only [Option.map_eq_some'] at hinv
      obtain ⟨H, hH, rfl⟩ := hinv
      have hje : (alloc h w).2 ≠ e ∨ getFns h e = [] := by
        by_cases hje : (alloc h w).2 = e
        · right
          rw [← hje]
          exact getFns_oob (Nat.le_refl _)
        · left; exact hje
      have hmid : getFns H e = getFns h e :=
        (Hf _ _ _ _ _ _ (hc.clone_mono_shrinks shrinks_alloc) hH).trans getFns_alloc_any
      rcases hje with hje | hnil
      · rw [getFns_unlink_ne hje, hmid]
      · rw [hnil]
        exact getFns_nil_of_shrinks
          (shrinks_trans shrinks_alloc (shrinks_trans (Hn _ _ _ _ _ hH) shrinks_unlink))
          hnil
    | clone j =>
      rw [hm] at hinv
      simp only [Option.map_eq_some'] at hinv
      obtain ⟨H, hH, rfl⟩ := hinv
      by_cases hj : j ∈ borrowed
      · rw [if_pos hj]
        exact Hf _ _ _ _ _ _ hc hH
      · rw [if_neg hj]
        have hje : j ≠ e := by
          intro hje
          subst hje
          exact absurd hm (hsc v)
        rw [getFns_unlink_ne hje]
        exact Hf _ _ _ _ _ _ hc hH
  | fail =>
    rw [Timeline.invoke] at hinv
    cases hinv
    rfl

theorem runCallbacks_preserves_fns {nextF : List Nat → Heap α → Nat → α → Option (Heap α)}
    (Hn : ∀ borrowed h i v h', nextF borrowed h i v = some h' → Shrinks h h')
    (Hf : ∀ borrowed h i v h' e, NoClone h e → nextF borrowed h i v = some h' →
      getFns h' e = getFns h e) :
    ∀ (subs : List (Sub α)) (borrowed : List Nat) (h : Heap α) (i : Nat) (h' : Heap α) (e : Nat),
      NoClone h e → (∀ s ∈ subs, s.noCloneOf e) →
      Timeline.runCallbacks nextF borrowed h i subs = some h' →
      getFns h' e = getFns h e := by
  intro subs
  induction subs with
  | nil =>
    intro borrowed h i h' e _ _ hr
    rw [Timeline.runCallbacks] at hr
    cases hr
    rfl
  | cons s rest ih =>
    intro borrowed h i h' e hc hsubs hr
    rw [Timeline.runCallbacks] at hr
    cases hinv : Timeline.invoke nextF borrowed h s (getLast h i) with
    | none => rw [hinv] at hr; cases hr
    | some h1 =>
      rw [hinv] at hr
      have hs1 : Shrinks h h1 := invoke_shrinks Hn hinv
      rw [ih borrowed h1 i h' e (hc.clone_mono_shrinks hs1)
        (fun s' hs' => hsubs s' (List.mem_cons_of_mem s hs')) hr]
      exact invoke_preserves_fns Hn Hf hc (hsubs s (List.mem_cons_self s rest)) hinv

theorem nextAux_preserves_fns :
    ∀ (fuel : Nat) (borrowed : List Nat) (h : Heap α) (i : Nat) (v : α) (h' : Heap α) (e : Nat),
      NoClone h e →
      Timeline.nextAux fuel borrowed h i v = some h' → getFns h' e = getFns h e := by
  intro fuel
  induction fuel with
  | zero =>
    intro borrowed h i v h' e _ hn
    exact absurd hn (by simp [Timeline.nextAux])
  | succ k ih =>
    intro borrowed h i v h' e hc hn
    rw [Timeline.nextAux] at hn
    have hsubs : ∀ s ∈ getFns (setLast h i v) i, s.noCloneOf e := by
      intro s hs
      rw [getFns_setLast] at hs
      exact hc.clone_at_mem hs
    rw [runCallbacks_preserves_fns (nextAux_shrinks k) ih _ _ _ _ _ _
      (hc.clone_mono_shrinks shrinks_setLast) hsubs hn]
    exact getFns_setLast

theorem next_preserves_fns :
    ∀ (fuel : Nat) (h : Heap α) (i : Nat) (v : α) (h' : Heap α) (e : Nat),
      NoClone h e →
      Timeline.next fuel h i v = some h' → getFns h' e = getFns h e :=
  fun fuel h i v h' e hc hn => nextAux_preserves_fns fuel [] h i v h' e hc hn

/-- The callback loop splits over list append. -/
theorem runCallbacks_append {nextF : List Nat → Heap α → Nat → α → Option (Heap α)}
    {borrowed : List Nat} :
    ∀ (xs ys : List (Sub α)) (h : Heap α) (i : Nat),
      Timeline.runCallbacks nextF borrowed h i (xs ++ ys)
        = (Timeline.runCallbacks nextF borrowed h i xs).bind
            (fun hm => Timeline.runCallbacks nextF borrowed hm i ys) := by
  intro xs
  induction xs with
  | nil => intro ys h i; rw [List.nil_append, Timeline.runCallbacks, Option.some_bind]
  | cons s rest ih =>
    intro ys h i
    rw [List.cons_append, Timeline.runCallbacks, Timeline.runCallbacks]
    cases hinv : Timeline.invoke nextF borrowed h s (getLast h i) with
    | none => rfl
    | some h1 => exact ih ys h1 i

end TimelineModel

namespace TimelineModel
variable {α : Type} [Inhabited α]

theorem c8_step (h : Heap α) (t b : Nat) (f : α → α) (old : List (Sub α)) (v : α)
    (fuel : Nat) (h' : Heap α)
    (htb : t ≠ b) (ht : t < h.length) (hb : b < h.length)
    (hnwt : NoWrite h t) (hav : AvoidsExc h b t) (hct : NoClone h t)
    (hfns : getFns h t = old ++ [Sub.map f b]) (hfb : getFns h b = [])
    (hold : ∀ s ∈ old, s.writesTo ≠ some b)
    (hn : Timeline.next fuel h t v = some h') :
    getLast h' t = v ∧ getLast h' b = f v ∧ Shrinks h h' ∧
    getFns h' t = getFns h t ∧ getFns h' b = [] := by
  match fuel with
  | 0 => exact absurd hn (by simp [next_eq, Timeline.nextAux])
  | k+1 =>
    rw [next_eq, Timeline.nextAux] at hn
    rw [show getFns (setLast h t v) t = old ++ [Sub.map f b] from
      getFns_setLast.trans hfns] at hn
    rw [runCallbacks_append] at hn
    cases hmid : Timeline.runCallbacks (Timeline.nextAux k) [t] (setLast h t v) t old with
    | none => rw [hmid] at hn; cases hn
    | some hm =>
      rw [hmid, Option.some_bind] at hn
      have hsh1 : Shrinks h (setLast h t v) := shrinks_setLast
      have hsm : Shrinks (setLast h t v) hm :=
        runCallbacks_shrinks (nextAux_shrinks k) _ _ _ _ _ hmid
      have hold_t : ∀ s ∈ old, s.writesTo ≠ some t := fun s hs =>
        hnwt.write_at_mem (i := t) (by rw [hfns]; exact List.mem_append_left _ hs)
      have ht1 : t < (setLast h t v).length := by simpa using ht
      have hb1 : b < (setLast h t v).length := by simpa using hb
      have hlast_t : getLast hm t = v := by
        rw [runCallbacks_preserves (nextAux_shrinks k)
          (fun borrowed h i v h' p hp hnw hip hn => by
            rw [nextAux_preserves k borrowed h i v h' p hp hnw hn, if_neg hip])
          old _ _ t _ t ht1 (hnwt.mono_shrinks hsh1) hold_t hmid]
        exact getLast_setLast_self ht
      have hlast_b : getLast hm b = getLast h b := by
        rw [runCallbacks_preserves_exc (nextAux_shrinks k) (nextAux_preserves_exc k)
          old _ _ t _ b t hb1 ht1 (Ne.symm htb) (hnwt.mono_shrinks hsh1) (hav.avoids_mono_shrinks hsh1)
          (fun s hs => ⟨hold s hs, hold_t s hs⟩) hmid]
        exact getLast_setLast_ne htb
      have hfns_t : getFns hm t = getFns h t := by
        rw [runCallbacks_preserves_fns (nextAux_shrinks k) (nextAux_preserves_fns k)
          old _ _ t _ t (hct.clone_mono_shrinks hsh1)
          (fun s hs => hct.clone_at_mem (i := t)
            (by rw [hfns]; exact List.mem_append_left _ hs)) hmid]
        exact getFns_setLast
      have hfb_m : getFns hm b = [] :=
        getFns_nil_of_shrinks hsm (getFns_setLast.trans hfb)
      rw [Timeline.runCallbacks, Timeline.invoke, hlast_t] at hn
      match k, hn with
      | m+1, hn =>
        rw [Timeline.nextAux] at hn
        rw [show getFns (setLast hm b (f v)) b = [] from getFns_setLast.trans hfb_m]
          at hn
        simp only [Timeline.runCallbacks] at hn
        cases hn
        have hbm : b < hm.length := Nat.lt_of_lt_of_le hb1 hsm.1
        refine ⟨?_, ?_, ?_, ?_, ?_⟩
        · rw [getLast_setLast_ne (Ne.symm htb), hlast_t]
        · exact getLast_setLast_self hbm
        · exact shrinks_trans hsh1 (shrinks_trans hsm shrinks_setLast)
        · rw [getFns_setLast, hfns_t]
        · rw [getFns_setLast, hfb_m]

end TimelineModel

namespace TimelineModel
variable {α : Type} [Inhabited α]

theorem c8_seq (old : List (Sub α)) (t b : Nat) (f : α → α) :
    ∀ (vs : List α) (h : Heap α) (fuel : Nat) (h2 : Heap α),
      t ≠ b → t < h.length → b < h.length →
      NoWrite h t → AvoidsExc h b t → NoClone h t →
      getFns h t = old ++ [Sub.map f b] → getFns h b = [] →
      (∀ s ∈ old, s.writesTo ≠ some b) →
      getLast h b = f (getLast h t) →
      Timeline.publishSeq fuel h t vs = some h2 →
      getLast h2 b = f (getLast h2 t) := by
  intro vs
  induction vs with
  | nil =>
    intro h fuel h2 _ _ _ _ _ _ _ _ _ hbase hseq
    rw [Timeline.publishSeq] at hseq
    cases hseq
    exact hbase
  | cons v vs ih =>
    intro h fuel h2 htb ht hb hnwt hav hct hfns hfb hold hbase hseq
    rw [Timeline.publishSeq] at hseq
    cases hn : Timeline.next fuel h t v with
    | none => rw [hn] at hseq; cases hseq
    | some h1 =>
      rw [hn] at hseq
      obtain ⟨hlt, hlb, hsh, hft, hfbn⟩ :=
        c8_step h t b f old v fuel h1 htb ht hb hnwt hav hct hfns hfb hold hn
      exact ih h1 fuel h2 htb (Nat.lt_of_lt_of_le ht hsh.1) (Nat.lt_of_lt_of_le hb hsh.1)
        (hnwt.mono_shrinks hsh) (hav.avoids_mono_shrinks hsh) (hct.clone_mono_shrinks hsh) (hft.trans hfns) hfbn hold
        (by rw [hlt, hlb]) hseq

/-- Claim C8 (single-threaded part): after `map`, the derived timeline's
value equals `f` of the source's value, both at creation and after every
terminating sequence of publishes on the source. -/
theorem c8_map_functor_TL (h : Heap α) (t : Nat) (f : α → α)
    (ht : t < h.length) (hwf : WF h) (hnwt : NoWrite h t) (hct : NoClone h t) :
    (Timeline.map h t f).2 = h.length ∧
    getLast (Timeline.map h t f).1 (Timeline.map h t f).2 = f (getLast h t) ∧
    getLast (Timeline.map h t f).1 t = getLast h t ∧
    ∀ (vs : List α) (fuel : Nat) (h2 : Heap α),
      Timeline.publishSeq fuel (Timeline.map h t f).1 t vs = some h2 →
      getLast h2 (Timeline.map h t f).2 = f (getLast h2 t) := by
  set b := h.length with hbdef
  have htb : t ≠ b := Nat.ne_of_lt ht
  have hmap1 : (Timeline.map h t f).1
      = setFns (alloc h (f (getLast h t))).1 t
          (getFns (alloc h (f (getLast h t))).1 t ++ [Sub.map f b]) := rfl
  have hmap2 : (Timeline.map h t f).2 = b := rfl
  have hta : t < (alloc h (f (getLast h t))).1.length := by simp; omega
  have hfns1 : getFns (Timeline.map h t f).1 t = getFns h t ++ [Sub.map f b] := by
    rw [hmap1, getFns_setFns_self hta, getFns_alloc_any]
  have hfb1 : getFns (Timeline.map h t f).1 b = [] := by
    rw [hmap1, getFns_setFns_ne htb]
    exact getFns_alloc_self
  have hlb1 : getLast (Timeline.map h t f).1 b = f (getLast h t) := by
    rw [hmap1, getLast_setFns]
    exact getLast_alloc_self
  have hlt1 : getLast (Timeline.map h t f).1 t = getLast h t := by
    rw [hmap1, getLast_setFns, getLast_alloc_lt ht]
  have hlen1 : (Timeline.map h t f).1.length = h.length + 1 := by
    rw [hmap1]; simp
  have hold : ∀ s ∈ getFns h t, s.writesTo ≠ some b := by
    intro s hs heq
    have := hwf t ht s hs b heq
    omega
  have hnwt1 : NoWrite (Timeline.map h t f).1 t := by
    intro i hi s hs
    by_cases hit : i = t
    · subst hit
      rw [hfns1] at hs
      rcases List.mem_append.1 hs with hs | hs
      · exact hnwt.write_at_mem hs
      · rw [List.mem_singleton.1 hs]
        rw [Sub.writesTo]
        intro hc
        exact htb (Option.some.inj hc).symm
    · rw [hmap1, getFns_setFns_ne (fun he => hit he.symm), getFns_alloc_any] at hs
      exact hnwt.write_at_mem hs
  have hav1 : AvoidsExc (Timeline.map h t f).1 b t := by
    intro i hi hit s hs
    rw [hmap1, getFns_setFns_ne (fun he => hit he.symm), getFns_alloc_any] at hs
    intro heq
    by_cases hlt : i < h.length
    · have := hwf i hlt s hs b heq
      omega
    · rw [getFns_oob (Nat.le_of_not_lt hlt)] at hs; cases hs
  have hct1 : NoClone (Timeline.map h t f).1 t := by
    intro i hi s hs
    by_cases hit : i = t
    · subst hit
      rw [hfns1] at hs
      rcases List.mem_append.1 hs with hs | hs
      · exact hct.clone_at_mem hs
      · rw [List.mem_singleton.1 hs]
        exact trivial
    · rw [hmap1, getFns_setFns_ne (fun he => hit he.symm), getFns_alloc_any] at hs
      exact hct.clone_at_mem hs
  refine ⟨hmap2, by rw [hmap2, hlb1], hlt1, ?_⟩
  intro vs fuel h2 hseq
  rw [hmap2]
  exact c8_seq (getFns h t) t b f vs (Timeline.map h t f).1 fuel h2 htb
    (by omega) (by omega) hnwt1 hav1 hct1 hfns1 hfb1 hold
    (by rw [hlb1, hlt1]) hseq

end TimelineModel

namespace TimelineModel
variable {α : Type} [Inhabited α]

theorem tsStatic_refl {h : TSHeap α} : TSStatic h h :=
  ⟨rfl, fun _ => ⟨rfl, rfl, rfl⟩⟩

theorem tsStatic_trans {h1 h2 h3 : TSHeap α} (a : TSStatic h1 h2) (b : TSStatic h2 h3) :
    TSStatic h1 h3 :=
  ⟨b.1.trans a.1, fun j => ⟨((b.2 j).1).trans (a.2 j).1,
    ((b.2 j).2.1).trans (a.2 j).2.1, ((b.2 j).2.2).trans (a.2 j).2.2⟩⟩

theorem tsStatic_setLast {h : TSHeap α} {i : Nat} {v : α} :
    TSStatic h (tsSetLast h i v) := by
  refine ⟨by simp, fun j => ⟨tsGet_setLast_fns, tsGet_setLast_lastPoisoned,
    tsGet_setLast_fnsPoisoned⟩⟩

theorem NoWriteTS.ts_write_static {h h' : TSHeap α} {t : Nat} (hs : TSStatic h h')
    (hnw : NoWriteTS h t) : NoWriteTS h' t := by
  intro i hi s hsm
  rw [show tsGetFns h' i = tsGetFns h i from (hs.2 i).1] at hsm
  exact hnw i (by rw [← hs.1]; exact hi) s hsm

theorem AvoidsExcTS.ts_avoids_static {h h' : TSHeap α} {p e : Nat} (hs : TSStatic h h')
    (ha : AvoidsExcTS h p e) : AvoidsExcTS h' p e := by
  intro i hi hie s hsm
  rw [show tsGetFns h' i = tsGetFns h i from (hs.2 i).1] at hsm
  exact ha i (by rw [← hs.1]; exact hi) hie s hsm

theorem tsRunCallbacks_static {nextF : TSHeap α → Nat → α → TSRes α}
    (Hn : ∀ h i v h', nextF h i v = TSRes.ok h' → TSStatic h h') :
    ∀ (subs : List (TSSub α)) (h : TSHeap α) (cur : α) (h' : TSHeap α),
      ThreadSafeTimeline.runCallbacks nextF h cur subs = TSRes.ok h' → TSStatic h h' := by
  intro subs
  induction subs with
  | nil =>
    intro h cur h' hr
    rw [ThreadSafeTimeline.runCallbacks] at hr
    cases hr
    exact tsStatic_refl
  | cons s rest ih =>
    intro h cur h' hr
    cases s with
    | fail =>
      rw [ThreadSafeTimeline.runCallbacks] at hr
      exact ih h cur h' hr
    | map f b =>
      rw [ThreadSafeTimeline.runCallbacks] at hr
      cases hn : nextF h b (f cur) with
      | ok h1 =>
        rw [hn] at hr
        exact tsStatic_trans (Hn _ _ _ _ hn) (ih h1 cur h' hr)
      | deadlock => rw [hn] at hr; cases hr
      | fuelOut => rw [hn] at hr; cases hr

theorem tsNext_static :
    ∀ (fuel : Nat) (held : List Nat) (h : TSHeap α) (i : Nat) (v : α) (h' : TSHeap α),
      ThreadSafeTimeline.next fuel held h i v = TSRes.ok h' → TSStatic h h' := by
  intro fuel
  induction fuel with
  | zero =>
    intro held h i v h' hn
    exact absurd hn (by simp [ThreadSafeTimeline.next])
  | succ k ih =>
    intro held h i v h' hn
    rw [ThreadSafeTimeline.next] at hn
    by_cases hlp : (tsGet h i).lastPoisoned
    · rw [if_pos hlp] at hn
      cases hn
      exact tsStatic_refl
    · rw [if_neg hlp] at hn
      by_cases hheld : i ∈ held
      · rw [if_pos hheld] at hn; cases hn
      · rw [if_neg hheld] at hn
        by_cases hfp : (tsGet (tsSetLast h i v) i).fnsPoisoned
        · rw [if_pos hfp] at hn
          cases hn
          exact tsStatic_setLast
        · rw [if_neg hfp] at hn
          exact tsStatic_trans tsStatic_setLast
            (tsRunCallbacks_static (fun a b c d he => ih (i :: held) a b c d he)
              _ _ _ _ hn)

end TimelineModel

namespace TimelineModel
variable {α : Type} [Inhabited α]

theorem NoWriteTS.ts_write_at_mem {h : TSHeap α} {t i : Nat} (hnw : NoWriteTS h t)
    {s : TSSub α} (hs : s ∈ tsGetFns h i) : s.writesTo ≠ some t := by
  by_cases hlt : i < h.length
  · exact hnw i hlt s hs
  · rw [show tsGetFns h i = [] from by
      simp [tsGetFns, tsGet_oob (Nat.le_of_not_lt hlt)]] at hs
    cases hs

theorem tsRunCallbacks_preserves {nextF : TSHeap α → Nat → α → TSRes α}
    (Hn : ∀ h i v h', nextF h i v = TSRes.ok h' → TSStatic h h')
    (Hp : ∀ h i v h' p, p < h.length → NoWriteTS h p → i ≠ p →
      nextF h i v = TSRes.ok h' → tsGetLast h' p = tsGetLast h p) :
    ∀ (subs : List (TSSub α)) (h : TSHeap α) (cur : α) (h' : TSHeap α) (p : Nat),
      p < h.length → NoWriteTS h p → (∀ s ∈ subs, s.writesTo ≠ some p) →
      ThreadSafeTimeline.runCallbacks nextF h cur subs = TSRes.ok h' →
      tsGetLast h' p = tsGetLast h p := by
  intro subs
  induction subs with
  | nil =>
    intro h cur h' p _ _ _ hr
    rw [ThreadSafeTimeline.runCallbacks] at hr
    cases hr
    rfl
  | cons s rest ih =>
    intro h cur h' p hp hnw hsubs hr
    cases s with
    | fail =>
      rw [ThreadSafeTimeline.runCallbacks] at hr
      exact ih h cur h' p hp hnw
        (fun s' hs' => hsubs s' (List.mem_cons_of_mem _ hs')) hr
    | map f b =>
      rw [ThreadSafeTimeline.runCallbacks] at hr
      have hbp : b ≠ p := by
        intro hbe
        exact hsubs (TSSub.map f b) (List.mem_cons_self _ rest)
          (by rw [hbe, TSSub.writesTo])
      cases hn : nextF h b (f cur) with
      | ok h1 =>
        rw [hn] at hr
        have hst : TSStatic h h1 := Hn _ _ _ _ hn
        rw [ih h1 cur h' p (by rw [hst.1]; exact hp) (hnw.ts_write_static hst)
          (fun s' hs' => hsubs s' (List.mem_cons_of_mem _ hs')) hr]
        exact Hp _ _ _ _ _ hp hnw hbp hn
      | deadlock => rw [hn] at hr; cases hr
      | fuelOut => rw [hn] at hr; cases hr

/-- Thread-safe value protection: with nobody publishing into `p`, a publish
on `i ≠ p` leaves `p`'s value cell unchanged; and a publish on `p` itself
(healthy value lock) stores `v`. -/
theorem tsNext_preserves :
    ∀ (fuel : Nat) (held : List Nat) (h : TSHeap α) (i : Nat) (v : α) (h' : TSHeap α)
      (p : Nat), p < h.length → NoWriteTS h p →
      ThreadSafeTimeline.next fuel held h i v = TSRes.ok h' →
      (i ≠ p → tsGetLast h' p = tsGetLast h p) ∧
      (i = p → (tsGet h i).lastPoisoned = false → tsGetLast h' p = v) := by
  intro fuel
  induction fuel with
  | zero =>
    intro held h i v h' p _ _ hn
    exact absurd hn (by simp [ThreadSafeTimeline.next])
  | succ k ih =>
    intro held h i v h' p hp hnw hn
    rw [ThreadSafeTimeline.next] at hn
    by_cases hlp : (tsGet h i).lastPoisoned
    · rw [if_pos hlp] at hn
      cases hn
      exact ⟨fun _ => rfl, fun _ hlf => absurd hlp (by rw [hlf]; simp)⟩
    · rw [if_neg hlp] at hn
      by_cases hheld : i ∈ held
      · rw [if_pos hheld] at hn; cases hn
      · rw [if_neg hheld] at hn
        have hIp : ∀ h i v h' p, p < (h : TSHeap α).length → NoWriteTS h p → i ≠ p →
            ThreadSafeTimeline.next k (i :: held) h i v = TSRes.ok h' →
            tsGetLast h' p = tsGetLast h p := by
          intro h2 i2 v2 h2' p2 hp2 hnw2 hip2 hn2
          exact (ih (i2 :: held) h2 i2 v2 h2' p2 hp2 hnw2 hn2).1 hip2
        by_cases hfp : (tsGet (tsSetLast h i v) i).fnsPoisoned
        · rw [if_pos hfp] at hn
          cases hn
          constructor
          · intro hip
            exact tsGetLast_setLast_ne hip
          · intro hip _
            subst hip
            exact tsGetLast_setLast_self hp
        · rw [if_neg hfp] at hn
          have hsubs : ∀ s ∈ tsGetFns (tsSetLast h i v) i, s.writesTo ≠ some p := by
            intro s hs
            rw [tsGetFns_setLast] at hs
            exact hnw.ts_write_at_mem hs
          have hrun := tsRunCallbacks_preserves
            (fun a b c d he => tsNext_static k (i :: held) a b c d he)
            (fun h2 i2 v2 h2' p2 hp2 hnw2 hip2 hn2 =>
              (ih (i :: held) h2 i2 v2 h2' p2 hp2 hnw2 hn2).1 hip2)
            _ _ _ _ p (by simpa using hp) (hnw.ts_write_static tsStatic_setLast) hsubs hn
          constructor
          · intro hip
            rw [hrun]
            exact tsGetLast_setLast_ne hip
          · intro hip _
            subst hip
            rw [hrun]
            exact tsGetLast_setLast_self hp

end TimelineModel

namespace TimelineModel
variable {α : Type} [Inhabited α]

theorem tsRunCallbacks_preserves_exc {nextF : TSHeap α → Nat → α → TSRes α}
    (Hn : ∀ h i v h', nextF h i v = TSRes.ok h' → TSStatic h h')
    (Hp : ∀ h i v h' p e, p < h.length → e < h.length → p ≠ e →
      NoWriteTS h e → AvoidsExcTS h p e → i ≠ p → i ≠ e →
      nextF h i v = TSRes.ok h' → tsGetLast h' p = tsGetLast h p) :
    ∀ (subs : List (TSSub α)) (h : TSHeap α) (cur : α) (h' : TSHeap α) (p e : Nat),
      p < h.length → e < h.length → p ≠ e → NoWriteTS h e → AvoidsExcTS h p e →
      (∀ s ∈ subs, s.writesTo ≠ some p ∧ s.writesTo ≠ some e) →
      ThreadSafeTimeline.runCallbacks nextF h cur subs = TSRes.ok h' →
      tsGetLast h' p = tsGetLast h p := by
  intro subs
  induction subs with
  | nil =>
    intro h cur h' p e _ _ _ _ _ _ hr
    rw [ThreadSafeTimeline.runCallbacks] at hr
    cases hr
    rfl
  | cons s rest ih =>
    intro h cur h' p e hp he hpe hnw hav hsubs hr
    cases s with
    | fail =>
      rw [ThreadSafeTimeline.runCallbacks] at hr
      exact ih h cur h' p e hp he hpe hnw hav
        (fun s' hs' => hsubs s' (List.mem_cons_of_mem _ hs')) hr
    | map f b =>
      rw [ThreadSafeTimeline.runCallbacks] at hr
      obtain ⟨hswp, hswe⟩ := hsubs (TSSub.map f b) (List.mem_cons_self _ rest)
      have hbp : b ≠ p := fun hbe => hswp (by rw [hbe, TSSub.writesTo])
      have hbe : b ≠ e := fun hbe2 => hswe (by rw [hbe2, TSSub.writesTo])
      cases hn : nextF h b (f cur) with
      | ok h1 =>
        rw [hn] at hr
        have hst : TSStatic h h1 := Hn _ _ _ _ hn
        rw [ih h1 cur h' p e (by rw [hst.1]; exact hp) (by rw [hst.1]; exact he)
          hpe (hnw.ts_write_static hst) (hav.ts_avoids_static hst)
          (fun s' hs' => hsubs s' (List.mem_cons_of_mem _ hs')) hr]
        exact Hp _ _ _ _ _ _ hp he hpe hnw hav hbp hbe hn
      | deadlock => rw [hn] at hr; cases hr
      | fuelOut => rw [hn] at hr; cases hr

theorem tsNext_preserves_exc :
    ∀ (fuel : Nat) (held : List Nat) (h : TSHeap α) (i : Nat) (v : α) (h' : TSHeap α)
      (p e : Nat), p < h.length → e < h.length → p ≠ e →
      NoWriteTS h e → AvoidsExcTS h p e → i ≠ p → i ≠ e →
      ThreadSafeTimeline.next fuel held h i v = TSRes.ok h' →
      tsGetLast h' p = tsGetLast h p := by
  intro fuel
  induction fuel with
  | zero =>
    intro held h i v h' p e _ _ _ _ _ _ _ hn
    exact absurd hn (by simp [ThreadSafeTimeline.next])
  | succ k ih =>
    intro held h i v h' p e hp he hpe hnw hav hip hie hn
    rw [ThreadSafeTimeline.next] at hn
    by_cases hlp : (tsGet h i).lastPoisoned
    · rw [if_pos hlp] at hn
      cases hn
      rfl
    · rw [if_neg hlp] at hn
      by_cases hheld : i ∈ held
      · rw [if_pos hheld] at hn; cases hn
      · rw [if_neg hheld] at hn
        by_cases hfp : (tsGet (tsSetLast h i v) i).fnsPoisoned
        · rw [if_pos hfp] at hn
          cases hn
          exact tsGetLast_setLast_ne hip
        · rw [if_neg hfp] at hn
          have hsubs : ∀ s ∈ tsGetFns (tsSetLast h i v) i,
              s.writesTo ≠ some p ∧ s.writesTo ≠ some e := by
            intro s hs
            rw [tsGetFns_setLast] at hs
            refine ⟨?_, hnw.ts_write_at_mem hs⟩
            by_cases hlt : i < h.length
            · exact hav i hlt hie s hs
            · rw [show tsGetFns h i = [] from by
                simp [tsGetFns, tsGet_oob (Nat.le_of_not_lt hlt)]] at hs
              cases hs
          rw [tsRunCallbacks_preserves_exc
            (fun a b c d he2 => tsNext_static k (i :: held) a b c d he2)
            (fun h2 i2 v2 h2' p2 e2 hp2 he2 hpe2 hnw2 hav2 hip2 hie2 hn2 =>
              ih (i :: held) h2 i2 v2 h2' p2 e2 hp2 he2 hpe2 hnw2 hav2 hip2 hie2 hn2)
            _ _ _ _ p e (by simpa using hp) (by simpa using he) hpe
            (hnw.ts_write_static tsStatic_setLast) (hav.ts_avoids_static tsStatic_setLast) hsubs hn]
          exact tsGetLast_setLast_ne hip

end TimelineModel

namespace TimelineModel
variable {α : Type} [Inhabited α]

theorem tsGetFns_alloc_any {h : TSHeap α} {v : α} {j : Nat} :
    tsGetFns (tsAlloc h v).1 j = tsGetFns h j := by
  simp only [tsGetFns, tsAlloc]
  rcases Nat.lt_trichotomy j h.length with hj | hj | hj
  · rw [tsGet_append_lt hj]
  · subst hj
    rw [tsGet_append_self, tsGet_oob (Nat.le_refl _)]
  · rw [tsGet_oob
      (show (h ++ [(⟨v, false, [], false⟩ : TSTL α)]).length ≤ j from by simp; omega),
      tsGet_oob (Nat.le_of_lt hj)]

theorem tsGetLast_alloc_lt {h : TSHeap α} {v : α} {j : Nat} (hj : j < h.length) :
    tsGetLast (tsAlloc h v).1 j = tsGetLast h j := by
  simp only [tsGetLast, tsAlloc]
  rw [tsGet_append_lt hj]

theorem tsGet_alloc_self {h : TSHeap α} {v : α} :
    tsGet (tsAlloc h v).1 h.length = ⟨v, false, [], false⟩ := tsGet_append_self

theorem tsGet_alloc_lt {h : TSHeap α} {v : α} {j : Nat} (hj : j < h.length) :
    tsGet (tsAlloc h v).1 j = tsGet h j := tsGet_append_lt hj

theorem tsRunCallbacks_append {nextF : TSHeap α → Nat → α → TSRes α} :
    ∀ (xs ys : List (TSSub α)) (h : TSHeap α) (cur : α),
      ThreadSafeTimeline.runCallbacks nextF h cur (xs ++ ys)
        = match ThreadSafeTimeline.runCallbacks nextF h cur xs with
          | .ok hm => ThreadSafeTimeline.runCallbacks nextF hm cur ys
          | r => r := by
  intro xs
  induction xs with
  | nil =>
    intro ys h cur
    rw [List.nil_append, ThreadSafeTimeline.runCallbacks]
  | cons s rest ih =>
    intro ys h cur
    cases s with
    | fail =>
      rw [List.cons_append, ThreadSafeTimeline.runCallbacks,
        ThreadSafeTimeline.runCallbacks]
      exact ih ys h cur
    | map f b =>
      rw [List.cons_append, ThreadSafeTimeline.runCallbacks,
        ThreadSafeTimeline.runCallbacks]
      cases hn : nextF h b (f cur) with
      | ok h1 => exact ih ys h1 cur
      | deadlock => rfl
      | fuelOut => rfl

theorem c8ts_step (h : TSHeap α) (t b : Nat) (f : α → α) (old : List (TSSub α))
    (v : α) (fuel : Nat) (held : List Nat) (h' : TSHeap α)
    (htb : t ≠ b) (ht : t < h.length) (hb : b < h.length)
    (hnwt : NoWriteTS h t) (hav : AvoidsExcTS h b t)
    (hfns : tsGetFns h t = old ++ [TSSub.map f b]) (hfb : tsGetFns h b = [])
    (hold : ∀ s ∈ old, s.writesTo ≠ some b)
    (hlpt : (tsGet h t).lastPoisoned = false)
    (hfpt : (tsGet h t).fnsPoisoned = false)
    (hlpb : (tsGet h b).lastPoisoned = false)
    (hfpb : (tsGet h b).fnsPoisoned = false)
    (hheldt : t ∉ held) (hheldb : b ∉ held)
    (hn : ThreadSafeTimeline.next fuel held h t v = TSRes.ok h') :
    tsGetLast h' t = v ∧ tsGetLast h' b = f v ∧ TSStatic h h' := by
  match fuel with
  | 0 => exact absurd hn (by simp [ThreadSafeTimeline.next])
  | k+1 =>
    rw [ThreadSafeTimeline.next] at hn
    rw [if_neg (by rw [hlpt]; simp), if_neg hheldt,
      if_neg (by rw [tsGet_setLast_fnsPoisoned, hfpt]; simp)] at hn
    have hst1 : TSStatic h (tsSetLast h t v) := tsStatic_setLast
    have hcur : tsGetLast (tsSetLast h t v) t = v := tsGetLast_setLast_self ht
    have hsubs1 : tsGetFns (tsSetLast h t v) t = old ++ [TSSub.map f b] :=
      tsGetFns_setLast.trans hfns
    rw [hcur, hsubs1, tsRunCallbacks_append] at hn
    cases hmidr : ThreadSafeTimeline.runCallbacks
        (ThreadSafeTimeline.next k (t :: held)) (tsSetLast h t v) v old with
    | deadlock => simp only [hmidr] at hn; cases hn
    | fuelOut => simp only [hmidr] at hn; cases hn
    | ok hm =>
      simp only [hmidr] at hn
      have hstm : TSStatic (tsSetLast h t v) hm :=
        tsRunCallbacks_static (tsNext_static k (t :: held)) old _ v hm hmidr
      have hold_t : ∀ s ∈ old, s.writesTo ≠ some t := fun s hs =>
        hnwt.ts_write_at_mem (i := t) (by rw [hfns]; exact List.mem_append_left _ hs)
      have ht1 : t < (tsSetLast h t v).length := by simpa using ht
      have hb1 : b < (tsSetLast h t v).length := by simpa using hb
      have hpres_t : tsGetLast hm t = v := by
        rw [tsRunCallbacks_preserves (tsNext_static k (t :: held))
          (fun h2 i2 v2 h2' p2 hp2 hnw2 hip2 hn2 =>
            (tsNext_preserves k (t :: held) h2 i2 v2 h2' p2 hp2 hnw2 hn2).1 hip2)
          old _ v hm t ht1 (hnwt.ts_write_static hst1) hold_t hmidr]
        exact hcur
      have hpres_b : tsGetLast hm b = tsGetLast h b := by
        rw [tsRunCallbacks_preserves_exc (tsNext_static k (t :: held))
          (tsNext_preserves_exc k (t :: held))
          old _ v hm b t hb1 ht1 (Ne.symm htb) (hnwt.ts_write_static hst1) (hav.ts_avoids_static hst1)
          (fun s hs => ⟨hold s hs, hold_t s hs⟩) hmidr]
        exact tsGetLast_setLast_ne htb
      have hflb : (tsGet hm b).lastPoisoned = false := by
        rw [(hstm.2 b).2.1, tsGet_setLast_lastPoisoned, hlpb]
      have hffb : (tsGet hm b).fnsPoisoned = false := by
        rw [(hstm.2 b).2.2, tsGet_setLast_fnsPoisoned, hfpb]
      have hfsb : tsGetFns hm b = [] := by
        rw [show tsGetFns hm b = tsGetFns (tsSetLast h t v) b from (hstm.2 b).1,
          tsGetFns_setLast, hfb]
      have hheldb2 : b ∉ t :: held := by
        intro hc
        rcases List.mem_cons.1 hc with hc | hc
        · exact htb hc.symm
        · exact hheldb hc
      rw [ThreadSafeTimeline.runCallbacks] at hn
      match k, hn with
      | m+1, hn =>
        simp only [ts_next_no_subs hflb hffb hfsb hheldb2,
          ThreadSafeTimeline.runCallbacks] at hn
        cases hn
        have hbm : b < hm.length := by rw [hstm.1]; exact hb1
        refine ⟨?_, tsGetLast_setLast_self hbm, ?_⟩
        · rw [tsGetLast_setLast_ne (Ne.symm htb), hpres_t]
        · exact tsStatic_trans hst1 (tsStatic_trans hstm tsStatic_setLast)

end TimelineModel

namespace TimelineModel
variable {α : Type} [Inhabited α]

theorem c8ts_seq (old : List (TSSub α)) (t b : Nat) (f : α → α) :
    ∀ (vs : List α) (h : TSHeap α) (fuel : Nat) (h2 : TSHeap α),
      t ≠ b → t < h.length → b < h.length →
      NoWriteTS h t → AvoidsExcTS h b t →
      tsGetFns h t = old ++ [TSSub.map f b] → tsGetFns h b = [] →
      (∀ s ∈ old, s.writesTo ≠ some b) →
      (tsGet h t).lastPoisoned = false → (tsGet h t).fnsPoisoned = false →
      (tsGet h b).lastPoisoned = false → (tsGet h b).fnsPoisoned = false →
      tsGetLast h b = f (tsGetLast h t) →
      tsPublishSeq fuel h t vs = some h2 →
      tsGetLast h2 b = f (tsGetLast h2 t) := by
  intro vs
  induction vs with
  | nil =>
    intro h fuel h2 _ _ _ _ _ _ _ _ _ _ _ _ hbase hseq
    rw [tsPublishSeq] at hseq
    cases hseq
    exact hbase
  | cons v vs ih =>
    intro h fuel h2 htb ht hb hnwt hav hfns hfb hold hlpt hfpt hlpb hfpb hbase hseq
    rw [tsPublishSeq] at hseq
    cases hn : ThreadSafeTimeline.next fuel [] h t v with
    | deadlock => rw [hn] at hseq; cases hseq
    | fuelOut => rw [hn] at hseq; cases hseq
    | ok h1 =>
      rw [hn] at hseq
      obtain ⟨hlt, hlb, hst⟩ := c8ts_step h t b f old v fuel [] h1 htb ht hb hnwt hav
        hfns hfb hold hlpt hfpt hlpb hfpb (by simp) (by simp) hn
      exact ih h1 fuel h2 htb (by rw [hst.1]; exact ht) (by rw [hst.1]; exact hb)
        (hnwt.ts_write_static hst) (hav.ts_avoids_static hst)
        (((hst.2 t).1).trans hfns) (((hst.2 b).1).trans hfb) hold
        (((hst.2 t).2.1).trans hlpt) (((hst.2 t).2.2).trans hfpt)
        (((hst.2 b).2.1).trans hlpb) (((hst.2 b).2.2).trans hfpb)
        (by rw [hlt, hlb]) hseq

/-- Claim C8 (thread-safe part): after `ThreadSafeTimeline::map` under
healthy locks, the derived timeline's value is `f` of the source's, at
creation and after every terminating sequence of publishes on the source. -/
theorem c8_map_functor_TS (h : TSHeap α) (t : Nat) (f : α → α)
    (ht : t < h.length) (hwf : WFTS h) (hnwt : NoWriteTS h t)
    (hlpt : (tsGet h t).lastPoisoned = false)
    (hfpt : (tsGet h t).fnsPoisoned = false) :
    ∀ h1 b, ThreadSafeTimeline.map h t f = some (h1, b) →
      b = h.length ∧
      tsGetLast h1 b = f (tsGetLast h t) ∧
      tsGetLast h1 t = tsGetLast h t ∧
      ∀ (vs : List α) (fuel : Nat) (h2 : TSHeap α),
        tsPublishSeq fuel h1 t vs = some h2 →
        tsGetLast h2 b = f (tsGetLast h2 t) := by
  intro h1 b hmap
  rw [ThreadSafeTimeline.map] at hmap
  rw [if_neg (by rw [hlpt]; simp), if_neg (by rw [hfpt]; simp)] at hmap
  have hb : b = h.length := by
    cases hmap
    rfl
  subst hb
  have hinj : h1 = tsSetFns (tsAlloc h (f (tsGetLast h t))).1 t
      (tsGetFns (tsAlloc h (f (tsGetLast h t))).1 t ++ [TSSub.map f h.length]) := by
    cases hmap
    rfl
  subst hinj
  set b := h.length with hbdef
  set hA := (tsAlloc h (f (tsGetLast h t))).1 with hAdef
  have htb : t ≠ b := Nat.ne_of_lt ht
  have hta : t < hA.length := by rw [hAdef]; simp [tsAlloc]; omega
  have hfns1 : tsGetFns (tsSetFns hA t (tsGetFns hA t ++ [TSSub.map f b])) t
      = tsGetFns h t ++ [TSSub.map f b] := by
    rw [show tsGetFns (tsSetFns hA t (tsGetFns hA t ++ [TSSub.map f b])) t
        = tsGetFns hA t ++ [TSSub.map f b] from by
      simp [tsGetFns, tsGet_setFns_self hta]]
    rw [hAdef, tsGetFns_alloc_any]
  have hgb : tsGet (tsSetFns hA t (tsGetFns hA t ++ [TSSub.map f b])) b
      = ⟨f (tsGetLast h t), false, [], false⟩ := by
    rw [show tsGet (tsSetFns hA t (tsGetFns hA t ++ [TSSub.map f b])) b
        = tsGet hA b from tsGet_setFns_ne htb]
    rw [hAdef, hbdef]
    exact tsGet_alloc_self
  have hgt : ∀ j, j ≠ t → tsGet (tsSetFns hA t (tsGetFns hA t ++ [TSSub.map f b])) j
      = tsGet hA j := fun j hj => tsGet_setFns_ne (fun he => hj he.symm)
  have hgtt : tsGetLast (tsSetFns hA t (tsGetFns hA t ++ [TSSub.map f b])) t
      = tsGetLast h t := by
    rw [tsGetLast_setFns, hAdef, tsGetLast_alloc_lt ht]
  have hflt : (tsGet (tsSetFns hA t (tsGetFns hA t ++ [TSSub.map f b])) t).lastPoisoned
      = false := by
    rw [show (tsGet (tsSetFns hA t (tsGetFns hA t ++ [TSSub.map f b])) t)
        = { tsGet hA t with fns := tsGetFns hA t ++ [TSSub.map f b] } from
      tsGet_setFns_self hta]
    rw [hAdef]
    simp only [tsGet_alloc_lt ht]
    exact hlpt
  have hfft : (tsGet (tsSetFns hA t (tsGetFns hA t ++ [TSSub.map f b])) t).fnsPoisoned
      = false := by
    rw [show (tsGet (tsSetFns hA t (tsGetFns hA t ++ [TSSub.map f b])) t)
        = { tsGet hA t with fns := tsGetFns hA t ++ [TSSub.map f b] } from
      tsGet_setFns_self hta]
    rw [hAdef]
    simp only [tsGet_alloc_lt ht]
    exact hfpt
  have hlen1 : (tsSetFns hA t (tsGetFns hA t ++ [TSSub.map f b])).length
      = h.length + 1 := by
    rw [length_tsSetFns, hAdef]
    simp [tsAlloc]
  have hold : ∀ s ∈ tsGetFns h t, s.writesTo ≠ some b := by
    intro s hs heq
    have := hwf t ht s hs b heq
    omega
  have hgfns : ∀ j, j ≠ t →
      tsGetFns (tsSetFns hA t (tsGetFns hA t ++ [TSSub.map f b])) j = tsGetFns hA j :=
    fun j hj => congrArg TSTL.fns (hgt j hj)
  have hlastb : tsGetLast (tsSetFns hA t (tsGetFns hA t ++ [TSSub.map f b])) b
      = f (tsGetLast h t) := congrArg TSTL.last hgb
  have hfnsb : tsGetFns (tsSetFns hA t (tsGetFns hA t ++ [TSSub.map f b])) b = [] :=
    congrArg TSTL.fns hgb
  have hnwt1 : NoWriteTS (tsSetFns hA t (tsGetFns hA t ++ [TSSub.map f b])) t := by
    intro i hi s hs
    by_cases hit : i = t
    · subst hit
      rw [hfns1] at hs
      rcases List.mem_append.1 hs with hs | hs
      · exact hnwt.ts_write_at_mem hs
      · rw [List.mem_singleton.1 hs, TSSub.writesTo]
        intro hc
        exact htb (Option.some.inj hc).symm
    · rw [hgfns i hit, hAdef, tsGetFns_alloc_any] at hs
      exact hnwt.ts_write_at_mem hs
  have hav1 : AvoidsExcTS (tsSetFns hA t (tsGetFns hA t ++ [TSSub.map f b])) b t := by
    intro i hi hit s hs
    rw [hgfns i hit, hAdef, tsGetFns_alloc_any] at hs
    intro heq
    by_cases hlt : i < h.length
    · have := hwf i hlt s hs b heq
      omega
    · rw [show tsGetFns h i = [] from by
        simp [tsGetFns, tsGet_oob (Nat.le_of_not_lt hlt)]] at hs
      cases hs
  refine ⟨rfl, hlastb, hgtt, ?_⟩
  intro vs fuel h2 hseq
  exact c8ts_seq (tsGetFns h t) t b f vs _ fuel h2 htb (by omega) (by omega)
    hnwt1 hav1 hfns1 hfnsb hold hflt hfft
    (congrArg TSTL.lastPoisoned hgb) (congrArg TSTL.fnsPoisoned hgb)
    (by rw [hlastb, hgtt]) hseq

end TimelineModel

namespace TimelineModel

/-- Claim C8: `t.map(f).current() = f(t.current())` both at creation and
after every terminating sequence of subsequent publishes on the source,
with no other publishers interfering (nobody publishes into `t`, no chain
function can drop-unlink `t`, and subscriber targets are allocated); for
both `Timeline` and `ThreadSafeTimeline` (the latter under healthy locks). -/
theorem c8_map_functor_law {α : Type} [Inhabited α] :
    (∀ (h : Heap α) (t : Nat) (f : α → α),
      t < h.length → WF h → NoWrite h t → NoClone h t →
      (Timeline.map h t f).2 = h.length ∧
      getLast (Timeline.map h t f).1 (Timeline.map h t f).2 = f (getLast h t) ∧
      getLast (Timeline.map h t f).1 t = getLast h t ∧
      ∀ (vs : List α) (fuel : Nat) (h2 : Heap α),
        Timeline.publishSeq fuel (Timeline.map h t f).1 t vs = some h2 →
        getLast h2 (Timeline.map h t f).2 = f (getLast h2 t)) ∧
    (∀ (h : TSHeap α) (t : Nat) (f : α → α),
      t < h.length → WFTS h → NoWriteTS h t →
      (tsGet h t).lastPoisoned = false → (tsGet h t).fnsPoisoned = false →
      ∀ h1 b, ThreadSafeTimeline.map h t f = some (h1, b) →
        b = h.length ∧
        tsGetLast h1 b = f (tsGetLast h t) ∧
        tsGetLast h1 t = tsGetLast h t ∧
        ∀ (vs : List α) (fuel : Nat) (h2 : TSHeap α),
          tsPublishSeq fuel h1 t vs = some h2 →
          tsGetLast h2 b = f (tsGetLast h2 t)) :=
  ⟨fun h t f ht hwf hnw hc => c8_map_functor_TL h t f ht hwf hnw hc,
   fun h t f ht hwf hnw hlp hfp => c8_map_functor_TS h t f ht hwf hnw hlp hfp⟩

/-- Witness for C8 at concrete heaps. -/
theorem c8_map_functor_witness :
    (getLast ((Timeline.publishSeq 2
        (Timeline.map [⟨(2 : Int), []⟩] 0 (fun a => a + 1)).1 0 [5]).getD [])
      (Timeline.map [⟨(2 : Int), []⟩] 0 (fun a => a + 1)).2 = 6) ∧
    (tsGetLast ((tsPublishSeq 2
        ((ThreadSafeTimeline.map [⟨(2 : Int), false, [], false⟩] 0
          (fun a => a + 1)).getD ([], 0)).1 0 [5]).getD [])
      ((ThreadSafeTimeline.map [⟨(2 : Int), false, [], false⟩] 0
          (fun a => a + 1)).getD ([], 0)).2 = 6) := by
  constructor
  · exact (c8_map_functor_law.1 [⟨(2 : Int), []⟩] 0 (fun a => a + 1)
      (by decide) (by decide) (by decide)
      (by
        intro i hi s hs
        have h0 : i = 0 := by simp at hi; omega
        subst h0
        simp [getFns, getTL] at hs)).2.2.2
      [5] 2 _ rfl
  · exact (c8_map_functor_law.2 [⟨(2 : Int), false, [], false⟩] 0 (fun a => a + 1)
      (by decide) (by decide) (by decide) rfl rfl _ _ rfl).2.2.2 [5] 2 _ rfl

end TimelineModel

namespace TimelineModel
variable {α : Type} [Inhabited α]

theorem agreesExc.getLast_eq {t : Nat} {g g' : Heap α} (ha : agreesExc t g g') :
    ∀ j, getLast g j = getLast g' j := ha.2.1

theorem agrees_setLast {t : Nat} {g g' : Heap α} {i : Nat} {v : α}
    (ha : agreesExc t g g') : agreesExc t (setLast g i v) (setLast g' i v) := by
  obtain ⟨hl, hv, hf⟩ := ha
  refine ⟨by simp [hl], ?_, ?_⟩
  · intro j
    by_cases hij : i = j
    · subst hij
      by_cases hi : i < g.length
      · rw [getLast_setLast_self hi, getLast_setLast_self (by rw [← hl]; exact hi)]
      · have hig : g.length ≤ i := Nat.le_of_not_lt hi
        have hig' : g'.length ≤ i := by rw [← hl]; exact hig
        rw [show setLast g i v = g from by
            simp [setLast, List.set_eq_of_length_le hig],
          show setLast g' i v = g' from by
            simp [setLast, List.set_eq_of_length_le hig']]
        exact hv i
    · rw [getLast_setLast_ne hij, getLast_setLast_ne hij]
      exact hv j
  · intro j hj
    rw [getFns_setLast, getFns_setLast]
    exact hf j hj

theorem agrees_setFns_other {t : Nat} {g g' : Heap α} {i : Nat}
    {fs fs' : List (Sub α)} (ha : agreesExc t g g') (hit : i = t) :
    agreesExc t (setFns g i fs) (setFns g' i fs') := by
  subst hit
  obtain ⟨hl, hv, hf⟩ := ha
  refine ⟨by simp [hl], ?_, ?_⟩
  · intro j
    rw [getLast_setFns, getLast_setFns]
    exact hv j
  · intro j hj
    rw [getFns_setFns_ne (fun he => hj he.symm), getFns_setFns_ne (fun he => hj he.symm)]
    exact hf j hj

theorem agrees_unlink {t : Nat} {g g' : Heap α} {j : Nat}
    (ha : agreesExc t g g') : agreesExc t (Timeline.unlink g j) (Timeline.unlink g' j) := by
  obtain ⟨hl, hv, hf⟩ := ha
  refine ⟨by simp [Timeline.unlink, hl], ?_, ?_⟩
  · intro k
    rw [getLast_unlink, getLast_unlink]
    exact hv k
  · intro k hk
    by_cases hjk : j = k
    · subst hjk
      rw [getFns_unlink_self, getFns_unlink_self]
    · rw [getFns_unlink_ne hjk, getFns_unlink_ne hjk]
      exact hf k hk

theorem agrees_alloc {t : Nat} {g g' : Heap α} {w : α}
    (ha : agreesExc t g g') : agreesExc t (alloc g w).1 (alloc g' w).1 := by
  obtain ⟨hl, hv, hf⟩ := ha
  refine ⟨by simp [hl], ?_, ?_⟩
  · intro j
    rcases Nat.lt_trichotomy j g.length with hj | hj | hj
    · rw [getLast_alloc_lt hj, getLast_alloc_lt (by rw [← hl]; exact hj)]
      exact hv j
    · subst hj
      rw [show getLast (alloc g w).1 g.length = w from getLast_alloc_self, hl,
        show getLast (alloc g' w).1 g'.length = w from getLast_alloc_self]
    · rw [show getLast (alloc g w).1 j = default from by
          simp [getLast,
            getTL_oob (show (alloc g w).1.length ≤ j from by simp; omega)],
        show getLast (alloc g' w).1 j = default from by
          simp [getLast,
            getTL_oob (show (alloc g' w).1.length ≤ j from by simp; omega)]]
  · intro j hj
    rw [getFns_alloc_any, getFns_alloc_any]
    exact hf j hj

theorem invoke_sim {t : Nat} {nextF : List Nat → Heap α → Nat → α → Option (Heap α)}
    (Hn : ∀ borrowed h i v h', nextF borrowed h i v = some h' → Shrinks h h')
    (Hs : ∀ borrowed g g' i v, agreesExc t g g' → NoWrite g t → i ≠ t →
      OptAgrees t (nextF borrowed g i v) (nextF borrowed g' i v))
    (borrowed : List Nat) {g g' : Heap α} {s : Sub α} {v : α}
    (ha : agreesExc t g g') (hnw : NoWrite g t) (hsw : s.writesTo ≠ some t) :
    OptAgrees t (Timeline.invoke nextF borrowed g s v)
      (Timeline.invoke nextF borrowed g' s v) := by
  cases s with
  | fail =>
    rw [Timeline.invoke, Timeline.invoke]
    exact ha
  | map f b =>
    have hbt : b ≠ t := fun hbe => hsw (by rw [hbe, Sub.writesTo])
    rw [Timeline.invoke, Timeline.invoke]
    exact Hs borrowed g g' b (f v) ha hnw hbt
  | bind mf b =>
    have hbt : b ≠ t := fun hbe => hsw (by rw [hbe, Sub.writesTo])
    rw [Timeline.invoke, Timeline.invoke]
    cases hm : mf v with
    | fresh w =>
      dsimp only
      have ha2 : agreesExc t (alloc g w).1 (alloc g' w).1 := agrees_alloc ha
      have hopt := Hs borrowed (alloc g w).1 (alloc g' w).1 b w ha2
        (hnw.mono_shrinks shrinks_alloc) hbt
      cases hx : nextF borrowed (alloc g w).1 b w with
      | none =>
        cases hy : nextF borrowed (alloc g' w).1 b w with
        | none => exact trivial
        | some H' => rw [hx, hy] at hopt; cases hopt
      | some H =>
        cases hy : nextF borrowed (alloc g' w).1 b w with
        | none => rw [hx, hy] at hopt; cases hopt
        | some H' =>
          rw [hx, hy] at hopt
          have hAg : agreesExc t H H' := hopt
          simp only [Option.map_some']
          rw [show (alloc g w).2 = (alloc g' w).2 from by simp [alloc, ha.1]]
          exact agrees_unlink hAg
    | clone j =>
      dsimp only
      have hvj : getLast g j = getLast g' j := ha.getLast_eq j
      have hopt := Hs borrowed g g' b (getLast g j) ha hnw hbt
      cases hx : nextF borrowed g b (getLast g j) with
      | none =>
        cases hy : nextF borrowed g' b (getLast g' j) with
        | none => exact trivial
        | some H' =>
          rw [← hvj] at hy
          rw [hx, hy] at hopt
          cases hopt
      | some H =>
        cases hy : nextF borrowed g' b (getLast g' j) with
        | none =>
          rw [← hvj] at hy
          rw [hx, hy] at hopt
          cases hopt
        | some H' =>
          rw [← hvj] at hy
          rw [hx, hy] at hopt
          have hAg : agreesExc t H H' := hopt
          simp only [Option.map_some']
          by_cases hj : j ∈ borrowed
          · rw [if_pos hj, if_pos hj]
            exact hAg
          · rw [if_neg hj, if_neg hj]
            exact agrees_unlink hAg

end TimelineModel

namespace TimelineModel
variable {α : Type} [Inhabited α]

theorem runCallbacks_sim {t : Nat} {nextF : List Nat → Heap α → Nat → α → Option (Heap α)}
    (Hn : ∀ borrowed h i v h', nextF borrowed h i v = some h' → Shrinks h h')
    (Hs : ∀ borrowed g g' i v, agreesExc t g g' → NoWrite g t → i ≠ t →
      OptAgrees t (nextF borrowed g i v) (nextF borrowed g' i v)) :
    ∀ (subs : List (Sub α)) (borrowed : List Nat) (g g' : Heap α) (i : Nat),
      agreesExc t g g' → NoWrite g t → (∀ s ∈ subs, s.writesTo ≠ some t) →
      OptAgrees t (Timeline.runCallbacks nextF borrowed g i subs)
        (Timeline.runCallbacks nextF borrowed g' i subs) := by
  intro subs
  induction subs with
  | nil =>
    intro borrowed g g' i ha hnw _
    rw [Timeline.runCallbacks, Timeline.runCallbacks]
    exact ha
  | cons s rest ih =>
    intro borrowed g g' i ha hnw hsubs
    rw [Timeline.runCallbacks, Timeline.runCallbacks]
    have hveq : getLast g' i = getLast g i := (ha.getLast_eq i).symm
    rw [hveq]
    have hopt := invoke_sim (v := getLast g i) Hn Hs borrowed ha hnw
      (hsubs s (List.mem_cons_self s rest))
    cases hx : Timeline.invoke nextF borrowed g s (getLast g i) with
    | none =>
      cases hy : Timeline.invoke nextF borrowed g' s (getLast g i) with
      | none => exact trivial
      | some H' => rw [hx, hy] at hopt; cases hopt
    | some H =>
      cases hy : Timeline.invoke nextF borrowed g' s (getLast g i) with
      | none => rw [hx, hy] at hopt; cases hopt
      | some H' =>
        rw [hx, hy] at hopt
        have hAg : agreesExc t H H' := hopt
        exact ih borrowed H H' i hAg (hnw.mono_shrinks (invoke_shrinks Hn hx))
          (fun s' hs' => hsubs s' (List.mem_cons_of_mem s hs'))

theorem nextAux_sim {t : Nat} :
    ∀ (fuel : Nat) (borrowed : List Nat) (g g' : Heap α) (i : Nat) (v : α),
      agreesExc t g g' → NoWrite g t → i ≠ t →
      OptAgrees t (Timeline.nextAux fuel borrowed g i v)
        (Timeline.nextAux fuel borrowed g' i v) := by
  intro fuel
  induction fuel with
  | zero =>
    intro borrowed g g' i v _ _ _
    rw [Timeline.nextAux, Timeline.nextAux]
    exact trivial
  | succ k ih =>
    intro borrowed g g' i v ha hnw hit
    rw [Timeline.nextAux, Timeline.nextAux]
    have ha1 : agreesExc t (setLast g i v) (setLast g' i v) := agrees_setLast ha
    have hfeq : getFns (setLast g' i v) i = getFns (setLast g i v) i := by
      rw [getFns_setLast, getFns_setLast]
      exact (ha.2.2 i hit).symm
    rw [hfeq]
    exact runCallbacks_sim (nextAux_shrinks k) ih _ _ _ _ i ha1
      (hnw.mono_shrinks shrinks_setLast)
      (fun s hs => hnw.write_at_mem (by rwa [getFns_setLast] at hs))

theorem runCallbacks_sim_dropfail {t : Nat}
    {nextF : List Nat → Heap α → Nat → α → Option (Heap α)}
    (Hn : ∀ borrowed h i v h', nextF borrowed h i v = some h' → Shrinks h h')
    (Hs : ∀ borrowed g g' i v, agreesExc t g g' → NoWrite g t → i ≠ t →
      OptAgrees t (nextF borrowed g i v) (nextF borrowed g' i v)) :
    ∀ (fs1 fs2 : List (Sub α)) (borrowed : List Nat) (g g' : Heap α) (i : Nat),
      agreesExc t g g' → NoWrite g t →
      (∀ s ∈ fs1 ++ fs2, s.writesTo ≠ some t) →
      OptAgrees t (Timeline.runCallbacks nextF borrowed g i (fs1 ++ Sub.fail :: fs2))
        (Timeline.runCallbacks nextF borrowed g' i (fs1 ++ fs2)) := by
  intro fs1
  induction fs1 with
  | nil =>
    intro fs2 borrowed g g' i ha hnw hsubs
    rw [List.nil_append, List.nil_append, Timeline.runCallbacks, Timeline.invoke]
    exact runCallbacks_sim Hn Hs fs2 borrowed g g' i ha hnw hsubs
  | cons s fs1 ih =>
    intro fs2 borrowed g g' i ha hnw hsubs
    rw [List.cons_append, List.cons_append, Timeline.runCallbacks,
      Timeline.runCallbacks]
    have hveq : getLast g' i = getLast g i := (ha.getLast_eq i).symm
    rw [hveq]
    have hsw : s.writesTo ≠ some t :=
      hsubs s (List.mem_append_left _ (List.mem_cons_self s fs1))
    have hopt := invoke_sim (v := getLast g i) Hn Hs borrowed ha hnw hsw
    cases hx : Timeline.invoke nextF borrowed g s (getLast g i) with
    | none =>
      cases hy : Timeline.invoke nextF borrowed g' s (getLast g i) with
      | none => exact trivial
      | some H' => rw [hx, hy] at hopt; cases hopt
    | some H =>
      cases hy : Timeline.invoke nextF borrowed g' s (getLast g i) with
      | none => rw [hx, hy] at hopt; cases hopt
      | some H' =>
        rw [hx, hy] at hopt
        have hAg : agreesExc t H H' := hopt
        refine ih fs2 borrowed H H' i hAg (hnw.mono_shrinks (invoke_shrinks Hn hx)) ?_
        intro s' hs'
        rcases List.mem_append.1 hs' with hs' | hs'
        · exact hsubs s' (List.mem_append_left _ (List.mem_cons_of_mem s hs'))
        · exact hsubs s' (List.mem_append_right _ hs')

theorem c3_TL (g : Heap α) (t : Nat) (v : α) (fs1 fs2 : List (Sub α)) (fuel : Nat)
    (ht : t < g.length) (hnw : NoWrite g t)
    (hfns : getFns g t = fs1 ++ Sub.fail :: fs2) :
    OptAgrees t (Timeline.next fuel g t v)
      (Timeline.next fuel (setFns g t (fs1 ++ fs2)) t v) ∧
    (∀ h2, Timeline.next fuel g t v = some h2 → getLast h2 t = v) := by
  constructor
  · match fuel with
    | 0 =>
      rw [next_eq, next_eq, Timeline.nextAux, Timeline.nextAux]
      exact trivial
    | k+1 =>
      rw [next_eq, next_eq, Timeline.nextAux, Timeline.nextAux]
      have ha0 : agreesExc t g (setFns g t (fs1 ++ fs2)) := by
        refine ⟨by simp, ?_, ?_⟩
        · intro j
          rw [getLast_setFns]
        · intro j hj
          rw [getFns_setFns_ne (fun he => hj he.symm)]
      have ha1 : agreesExc t (setLast g t v)
          (setLast (setFns g t (fs1 ++ fs2)) t v) := agrees_setLast ha0
      have hfg : getFns (setLast g t v) t = fs1 ++ Sub.fail :: fs2 :=
        getFns_setLast.trans hfns
      have hfg' : getFns (setLast (setFns g t (fs1 ++ fs2)) t v) t = fs1 ++ fs2 :=
        getFns_setLast.trans (getFns_setFns_self ht)
      rw [hfg, hfg']
      refine runCallbacks_sim_dropfail (nextAux_shrinks k) (nextAux_sim k) fs1 fs2 _ _ _ t ha1
        (hnw.mono_shrinks shrinks_setLast) ?_
      intro s hs
      refine hnw.write_at_mem (i := t) ?_
      rw [hfns]
      rcases List.mem_append.1 hs with hs | hs
      · exact List.mem_append_left _ hs
      · exact List.mem_append_right _ (List.mem_cons_of_mem _ hs)
  · intro h2 hn
    rw [next_preserves fuel g t v h2 t ht hnw hn, if_pos rfl]

end TimelineModel

namespace TimelineModel
variable {α : Type} [Inhabited α]

theorem tsAgrees_setLast {t : Nat} {g g' : TSHeap α} {i : Nat} {v : α}
    (ha : tsAgreesExc t g g') :
    tsAgreesExc t (tsSetLast g i v) (tsSetLast g' i v) := by
  obtain ⟨hl, hv, hfl, hf⟩ := ha
  refine ⟨by simp [hl], ?_, ?_, ?_⟩
  · intro j
    by_cases hij : i = j
    · subst hij
      by_cases hi : i < g.length
      · rw [tsGetLast_setLast_self hi, tsGetLast_setLast_self (by rw [← hl]; exact hi)]
      · have hig : g.length ≤ i := Nat.le_of_not_lt hi
        have hig' : g'.length ≤ i := by rw [← hl]; exact hig
        rw [show tsSetLast g i v = g from by
            simp [tsSetLast, List.set_eq_of_length_le hig],
          show tsSetLast g' i v = g' from by
            simp [tsSetLast, List.set_eq_of_length_le hig']]
        exact hv i
    · rw [tsGetLast_setLast_ne hij, tsGetLast_setLast_ne hij]
      exact hv j
  · intro j
    rw [tsGet_setLast_lastPoisoned, tsGet_setLast_lastPoisoned,
      tsGet_setLast_fnsPoisoned, tsGet_setLast_fnsPoisoned]
    exact hfl j
  · intro j hj
    rw [tsGetFns_setLast, tsGetFns_setLast]
    exact hf j hj

theorem tsRunCallbacks_sim {t : Nat} {nextF : TSHeap α → Nat → α → TSRes α}
    (Hn : ∀ h i v h', nextF h i v = TSRes.ok h' → TSStatic h h')
    (Hs : ∀ g g' i v, tsAgreesExc t g g' → NoWriteTS g t → i ≠ t →
      TSResAgrees t (nextF g i v) (nextF g' i v)) :
    ∀ (subs : List (TSSub α)) (g g' : TSHeap α) (cur : α),
      tsAgreesExc t g g' → NoWriteTS g t → (∀ s ∈ subs, s.writesTo ≠ some t) →
      TSResAgrees t (ThreadSafeTimeline.runCallbacks nextF g cur subs)
        (ThreadSafeTimeline.runCallbacks nextF g' cur subs) := by
  intro subs
  induction subs with
  | nil =>
    intro g g' cur ha hnw _
    rw [ThreadSafeTimeline.runCallbacks, ThreadSafeTimeline.runCallbacks]
    exact ha
  | cons s rest ih =>
    intro g g' cur ha hnw hsubs
    cases s with
    | fail =>
      rw [ThreadSafeTimeline.runCallbacks, ThreadSafeTimeline.runCallbacks]
      exact ih g g' cur ha hnw (fun s' hs' => hsubs s' (List.mem_cons_of_mem _ hs'))
    | map f b =>
      rw [ThreadSafeTimeline.runCallbacks, ThreadSafeTimeline.runCallbacks]
      have hbt : b ≠ t := by
        intro hbe
        exact hsubs (TSSub.map f b) (List.mem_cons_self _ rest)
          (by rw [hbe, TSSub.writesTo])
      have hopt := Hs g g' b (f cur) ha hnw hbt
      cases hx : nextF g b (f cur) with
      | ok H =>
        cases hy : nextF g' b (f cur) with
        | ok H' =>
          rw [hx, hy] at hopt
          have hAg : tsAgreesExc t H H' := hopt
          have hst : TSStatic g H := Hn _ _ _ _ hx
          exact ih H H' cur hAg (hnw.ts_write_static hst)
            (fun s' hs' => hsubs s' (List.mem_cons_of_mem _ hs'))
        | deadlock => rw [hx, hy] at hopt; cases hopt
        | fuelOut => rw [hx, hy] at hopt; cases hopt
      | deadlock =>
        cases hy : nextF g' b (f cur) with
        | ok H' => rw [hx, hy] at hopt; cases hopt
        | deadlock => exact trivial
        | fuelOut => rw [hx, hy] at hopt; cases hopt
      | fuelOut =>
        cases hy : nextF g' b (f cur) with
        | ok H' => rw [hx, hy] at hopt; cases hopt
        | deadlock => rw [hx, hy] at hopt; cases hopt
        | fuelOut => exact trivial

end TimelineModel

namespace TimelineModel
variable {α : Type} [Inhabited α]

theorem tsNext_sim {t : Nat} :
    ∀ (fuel : Nat) (held : List Nat) (g g' : TSHeap α) (i : Nat) (v : α),
      tsAgreesExc t g g' → NoWriteTS g t → i ≠ t →
      TSResAgrees t (ThreadSafeTimeline.next fuel held g i v)
        (ThreadSafeTimeline.next fuel held g' i v) := by
  intro fuel
  induction fuel with
  | zero =>
    intro held g g' i v _ _ _
    rw [ThreadSafeTimeline.next, ThreadSafeTimeline.next]
    exact trivial
  | succ k ih =>
    intro held g g' i v ha hnw hit
    rw [ThreadSafeTimeline.next, ThreadSafeTimeline.next]
    have hlp : (tsGet g' i).lastPoisoned = (tsGet g i).lastPoisoned := (ha.2.2.1 i).1.symm
    rw [hlp]
    by_cases hp : (tsGet g i).lastPoisoned
    · rw [if_pos hp, if_pos hp]
      exact ha
    · rw [if_neg hp, if_neg hp]
      by_cases hheld : i ∈ held
      · rw [if_pos hheld, if_pos hheld]
        exact trivial
      · rw [if_neg hheld, if_neg hheld]
        have ha1 : tsAgreesExc t (tsSetLast g i v) (tsSetLast g' i v) :=
          tsAgrees_setLast ha
        have hfp : (tsGet (tsSetLast g' i v) i).fnsPoisoned
            = (tsGet (tsSetLast g i v) i).fnsPoisoned := (ha1.2.2.1 i).2.symm
        rw [hfp]
        by_cases hqp : (tsGet (tsSetLast g i v) i).fnsPoisoned
        · rw [if_pos hqp, if_pos hqp]
          exact ha1
        · rw [if_neg hqp, if_neg hqp]
          have hcur : tsGetLast (tsSetLast g' i v) i = tsGetLast (tsSetLast g i v) i :=
            (ha1.2.1 i).symm
          have hfns : tsGetFns (tsSetLast g' i v) i = tsGetFns (tsSetLast g i v) i := by
            rw [tsGetFns_setLast, tsGetFns_setLast]
            exact (ha.2.2.2 i hit).symm
          rw [hcur, hfns]
          exact tsRunCallbacks_sim (fun a b c d he => tsNext_static k (i :: held) a b c d he)
            (ih (i :: held)) _ _ _ _ ha1 (hnw.ts_write_static tsStatic_setLast)
            (fun s hs => hnw.ts_write_at_mem (by rwa [tsGetFns_setLast] at hs))

theorem tsRunCallbacks_sim_dropfail {t : Nat} {nextF : TSHeap α → Nat → α → TSRes α}
    (Hn : ∀ h i v h', nextF h i v = TSRes.ok h' → TSStatic h h')
    (Hs : ∀ g g' i v, tsAgreesExc t g g' → NoWriteTS g t → i ≠ t →
      TSResAgrees t (nextF g i v) (nextF g' i v)) :
    ∀ (fs1 fs2 : List (TSSub α)) (g g' : TSHeap α) (cur : α),
      tsAgreesExc t g g' → NoWriteTS g t →
      (∀ s ∈ fs1 ++ fs2, s.writesTo ≠ some t) →
      TSResAgrees t (ThreadSafeTimeline.runCallbacks nextF g cur (fs1 ++ TSSub.fail :: fs2))
        (ThreadSafeTimeline.runCallbacks nextF g' cur (fs1 ++ fs2)) := by
  intro fs1
  induction fs1 with
  | nil =>
    intro fs2 g g' cur ha hnw hsubs
    rw [List.nil_append, List.nil_append, ThreadSafeTimeline.runCallbacks]
    exact tsRunCallbacks_sim Hn Hs fs2 g g' cur ha hnw hsubs
  | cons s fs1 ih =>
    intro fs2 g g' cur ha hnw hsubs
    cases s with
    | fail =>
      rw [List.cons_append, List.cons_append, ThreadSafeTimeline.runCallbacks,
        ThreadSafeTimeline.runCallbacks]
      refine ih fs2 g g' cur ha hnw ?_
      intro s' hs'
      rcases List.mem_append.1 hs' with hs' | hs'
      · exact hsubs s' (List.mem_append_left _ (List.mem_cons_of_mem _ hs'))
      · exact hsubs s' (List.mem_append_right _ hs')
    | map f b =>
      rw [List.cons_append, List.cons_append, ThreadSafeTimeline.runCallbacks,
        ThreadSafeTimeline.runCallbacks]
      have hbt : b ≠ t := by
        intro hbe
        refine hsubs (TSSub.map f b)
          (List.mem_append_left _ (List.mem_cons_self _ fs1)) ?_
        rw [hbe, TSSub.writesTo]
      have hopt := Hs g g' b (f cur) ha hnw hbt
      cases hx : nextF g b (f cur) with
      | ok H =>
        cases hy : nextF g' b (f cur) with
        | ok H' =>
          rw [hx, hy] at hopt
          have hAg : tsAgreesExc t H H' := hopt
          refine ih fs2 H H' cur hAg (hnw.ts_write_static (Hn _ _ _ _ hx)) ?_
          intro s' hs'
          rcases List.mem_append.1 hs' with hs' | hs'
          · exact hsubs s' (List.mem_append_left _ (List.mem_cons_of_mem _ hs'))
          · exact hsubs s' (List.mem_append_right _ hs')
        | deadlock => rw [hx, hy] at hopt; cases hopt
        | fuelOut => rw [hx, hy] at hopt; cases hopt
      | deadlock =>
        cases hy : nextF g' b (f cur) with
        | ok H' => rw [hx, hy] at hopt; cases hopt
        | deadlock => exact trivial
        | fuelOut => rw [hx, hy] at hopt; cases hopt
      | fuelOut =>
        cases hy : nextF g' b (f cur) with
        | ok H' => rw [hx, hy] at hopt; cases hopt
        | deadlock => rw [hx, hy] at hopt; cases hopt
        | fuelOut => exact trivial

theorem c3_TS (g : TSHeap α) (t : Nat) (v : α) (fs1 fs2 : List (TSSub α)) (fuel : Nat)
    (ht : t < g.length) (hnw : NoWriteTS g t)
    (hfns : tsGetFns g t = fs1 ++ TSSub.fail :: fs2) :
    TSResAgrees t (ThreadSafeTimeline.next fuel [] g t v)
      (ThreadSafeTimeline.next fuel [] (tsSetFns g t (fs1 ++ fs2)) t v) ∧
    (∀ h2, ThreadSafeTimeline.next fuel [] g t v = TSRes.ok h2 →
      (tsGet g t).lastPoisoned = false → tsGetLast h2 t = v) := by
  constructor
  · match fuel with
    | 0 =>
      rw [ThreadSafeTimeline.next, ThreadSafeTimeline.next]
      exact trivial
    | k+1 =>
      rw [ThreadSafeTimeline.next, ThreadSafeTimeline.next]
      have hg' : tsGet (tsSetFns g t (fs1 ++ fs2)) t = { tsGet g t with fns := fs1 ++ fs2 } :=
        tsGet_setFns_self ht
      have ha0 : tsAgreesExc t g (tsSetFns g t (fs1 ++ fs2)) := by
        refine ⟨by simp, ?_, ?_, ?_⟩
        · intro j
          rw [tsGetLast_setFns]
        · intro j
          by_cases hjt : j = t
          · subst hjt
            rw [hg']
            exact ⟨rfl, rfl⟩
          · rw [tsGet_setFns_ne (fun he => hjt he.symm)]
            exact ⟨rfl, rfl⟩
        · intro j hj
          rw [show tsGetFns (tsSetFns g t (fs1 ++ fs2)) j = tsGetFns g j from
            congrArg TSTL.fns (tsGet_setFns_ne (fun he => hj he.symm))]
      have hlp : (tsGet (tsSetFns g t (fs1 ++ fs2)) t).lastPoisoned
          = (tsGet g t).lastPoisoned := by rw [hg']
      rw [hlp]
      by_cases hp : (tsGet g t).lastPoisoned
      · rw [if_pos hp, if_pos hp]
        exact ha0
      · rw [if_neg hp, if_neg hp]
        rw [if_neg (List.not_mem_nil t), if_neg (List.not_mem_nil t)]
        have ha1 : tsAgreesExc t (tsSetLast g t v)
            (tsSetLast (tsSetFns g t (fs1 ++ fs2)) t v) := tsAgrees_setLast ha0
        have hfp : (tsGet (tsSetLast (tsSetFns g t (fs1 ++ fs2)) t v) t).fnsPoisoned
            = (tsGet (tsSetLast g t v) t).fnsPoisoned := (ha1.2.2.1 t).2.symm
        rw [hfp]
        by_cases hqp : (tsGet (tsSetLast g t v) t).fnsPoisoned
        · rw [if_pos hqp, if_pos hqp]
          exact ha1
        · rw [if_neg hqp, if_neg hqp]
          have hcur : tsGetLast (tsSetLast (tsSetFns g t (fs1 ++ fs2)) t v) t
              = tsGetLast (tsSetLast g t v) t := (ha1.2.1 t).symm
          rw [hcur]
          have hfg : tsGetFns (tsSetLast g t v) t = fs1 ++ TSSub.fail :: fs2 :=
            tsGetFns_setLast.trans hfns
          have hfg' : tsGetFns (tsSetLast (tsSetFns g t (fs1 ++ fs2)) t v) t
              = fs1 ++ fs2 :=
            tsGetFns_setLast.trans (congrArg TSTL.fns hg')
          rw [hfg, hfg']
          refine tsRunCallbacks_sim_dropfail
            (fun a b c d he => tsNext_static k (t :: []) a b c d he)
            (tsNext_sim k (t :: [])) fs1 fs2 _ _ _ ha1
            (hnw.ts_write_static tsStatic_setLast) ?_
          intro s hs
          refine hnw.ts_write_at_mem (i := t) ?_
          rw [hfns]
          rcases List.mem_append.1 hs with hs | hs
          · exact List.mem_append_left _ hs
          · exact List.mem_append_right _ (List.mem_cons_of_mem _ hs)
  · intro h2 hn hlpf
    exact (tsNext_preserves fuel [] g t v h2 t ht hnw hn).2 rfl hlpf

end TimelineModel

namespace TimelineModel

/-- Claim C3: a panicking subscriber is caught: the publish terminates iff
it does with the panicking subscriber removed, every timeline ends with the
same value in both runs (so every remaining subscriber still observed the
update), and the published value is stored; both variants (heaps that do
not publish back into the source). -/
theorem c3_subscriber_isolation {α : Type} [Inhabited α] :
    (∀ (g : Heap α) (t : Nat) (v : α) (fs1 fs2 : List (Sub α)) (fuel : Nat),
      t < g.length → NoWrite g t → getFns g t = fs1 ++ Sub.fail :: fs2 →
      OptAgrees t (Timeline.next fuel g t v)
        (Timeline.next fuel (setFns g t (fs1 ++ fs2)) t v) ∧
      (∀ h2, Timeline.next fuel g t v = some h2 → getLast h2 t = v)) ∧
    (∀ (g : TSHeap α) (t : Nat) (v : α) (fs1 fs2 : List (TSSub α)) (fuel : Nat),
      t < g.length → NoWriteTS g t → tsGetFns g t = fs1 ++ TSSub.fail :: fs2 →
      TSResAgrees t (ThreadSafeTimeline.next fuel [] g t v)
        (ThreadSafeTimeline.next fuel [] (tsSetFns g t (fs1 ++ fs2)) t v) ∧
      (∀ h2, ThreadSafeTimeline.next fuel [] g t v = TSRes.ok h2 →
        (tsGet g t).lastPoisoned = false → tsGetLast h2 t = v)) :=
  ⟨fun g t v fs1 fs2 fuel ht hnw hfns => c3_TL g t v fs1 fs2 fuel ht hnw hfns,
   fun g t v fs1 fs2 fuel ht hnw hfns => c3_TS g t v fs1 fs2 fuel ht hnw hfns⟩

/-- Witness for C3 at concrete heaps with a panicking middle subscriber. -/
theorem c3_subscriber_isolation_witness :
    (getLast ((Timeline.next 3 c3WHeapTL 0 9).getD []) 2
      = getLast ((Timeline.next 3 (setFns c3WHeapTL 0
          [Sub.map (fun a => a + 1) 1, Sub.map (fun a => a + 2) 2]) 0 9).getD []) 2 ∧
     getLast ((Timeline.next 3 c3WHeapTL 0 9).getD []) 0 = 9) ∧
    (tsGetLast ((ThreadSafeTimeline.next 3 [] c3WHeapTS 0 9).getD []) 2
      = tsGetLast ((ThreadSafeTimeline.next 3 [] (tsSetFns c3WHeapTS 0
          [TSSub.map (fun a => a + 1) 1, TSSub.map (fun a => a + 2) 2]) 0 9).getD []) 2 ∧
     tsGetLast ((ThreadSafeTimeline.next 3 [] c3WHeapTS 0 9).getD []) 0 = 9) := by
  have HTL := c3_subscriber_isolation.1 c3WHeapTL 0 9
    [Sub.map (fun a => a + 1) 1] [Sub.map (fun a => a + 2) 2] 3
    (by decide) (by decide) rfl
  have HTS := c3_subscriber_isolation.2 c3WHeapTS 0 9
    [TSSub.map (fun a => a + 1) 1] [TSSub.map (fun a => a + 2) 2] 3
    (by decide) (by decide) rfl
  have hATL : agreesExc 0 ((Timeline.next 3 c3WHeapTL 0 9).getD [])
      ((Timeline.next 3 (setFns c3WHeapTL 0
        [Sub.map (fun a => a + 1) 1, Sub.map (fun a => a + 2) 2]) 0 9).getD []) := HTL.1
  have hATS : tsAgreesExc 0 ((ThreadSafeTimeline.next 3 [] c3WHeapTS 0 9).getD [])
      ((ThreadSafeTimeline.next 3 [] (tsSetFns c3WHeapTS 0
        [TSSub.map (fun a => a + 1) 1, TSSub.map (fun a => a + 2) 2]) 0 9).getD []) := HTS.1
  exact ⟨⟨hATL.2.1 2, HTL.2 ((Timeline.next 3 c3WHeapTL 0 9).getD []) rfl⟩,
    ⟨hATS.2.1 2,
     HTS.2 ((ThreadSafeTimeline.next 3 [] c3WHeapTS 0 9).getD []) rfl rfl⟩⟩

end TimelineModel
